import Mathlib

/-!
Verification of the easyjson path/mutation/merge/normalization engine.

The definitions below are a shallow embedding of the Go source
(`easyjson.go`, current revision with the strict object-creation policy,
the `pathIter`/`nextPathToken` tokenizer, `jvSetValueByPath`,
`jvRemoveValueByPath`, `jvDeepMerge`, `jvSetArrayValue`, `normalizeValue`,
`canonicalString`).

Modelling conventions:
* Go `interface{}` JSON values are the closed sum `Value` below; Go strings
  are lists of characters (Go compares and orders strings bytewise; on valid
  UTF-8 data bytewise order coincides with codepoint order, so `List Char`
  with pointwise `Char` comparison is faithful).
* Go `map[string]interface{}` is an association list with unique keys.
  Assignment `m[k] = v` replaces the binding in place or appends a new one
  (`objInsert`); the list order is a representation artifact of the
  unordered Go map, and structural equality (`reflect.DeepEqual`) is
  modelled by the order-insensitive `deepEqual` below.
* Go `float64` numbers are modelled as integers: every claim under study
  depends only on the facts that `json.Marshal` renders distinct numbers as
  distinct strings and that Go compares the rendered strings
  lexicographically, and both facts hold of the decimal rendering of
  integers used here.  (`strconv.Atoi` overflow on 64-bit integers is
  likewise not modelled; no claim involves numbers of that size.)
* In-place mutation: the recursive Go setter mutates maps it has already
  walked through even when it later fails, because a map assignment such as
  creating an intermediate empty object happens before the recursive call.
  The embedding therefore threads the post-call state of the subtree
  through every return value: `jvSet` returns the pair of the tree as the
  caller's memory sees it after the call together with the success flag.
-/

namespace EasyJson

/-- The JSON value model: the closed variant produced by decoding JSON
text or by the constructors of the package. -/
inductive Value where
  | null : Value
  | bool (b : Bool) : Value
  | num (n : Int) : Value
  | str (s : List Char) : Value
  | arr (elems : List Value) : Value
  | obj (fields : List (List Char × Value)) : Value
deriving Repr

/-! ### Association-list primitives for Go maps -/

/-- Lookup in a Go map modelled as an association list (`m[k]`, comma-ok). -/
def objLookup (k : List Char) : List (List Char × Value) → Option Value
  | [] => none
  | (k2, w) :: r => if k = k2 then some w else objLookup k r

/-- Assignment `m[k] = v` on a Go map modelled as an association list:
replaces the existing binding of `k` or appends a fresh one. -/
def objInsert (k : List Char) (v : Value) :
    List (List Char × Value) → List (List Char × Value)
  | [] => [(k, v)]
  | (k2, w) :: r => if k = k2 then (k, v) :: r else (k2, w) :: objInsert k v r

/-- Deletion `delete(m, k)` on a Go map modelled as an association list. -/
def objDelete (k : List Char) :
    List (List Char × Value) → List (List Char × Value)
  | [] => []
  | (k2, w) :: r => if k = k2 then r else (k2, w) :: objDelete k r

/-! ### strconv.Atoi -/

def isDigitCh (c : Char) : Bool := '0' ≤ c && c ≤ '9'

/-- Decimal value of a digit string, most significant first. -/
def digitsVal (ds : List Char) : Nat :=
  ds.foldl (fun acc c => acc * 10 + (c.toNat - ('0').toNat)) 0

/-- Parse a non-empty all-digit string. -/
def parseDigits (s : List Char) : Option Nat :=
  if s ≠ [] && s.all isDigitCh then some (digitsVal s) else none

/-- Model of Go `strconv.Atoi`: optional sign, then decimal digits. -/
def goAtoi (s : List Char) : Option Int :=
  match s with
  | '+' :: rest => (parseDigits rest).map fun n => (n : Int)
  | '-' :: rest => (parseDigits rest).map fun n => -(n : Int)
  | _ => (parseDigits s).map fun n => (n : Int)

/-! ### Path tokenization

Both `pathIter.next` (used by `PathExists`/`GetByPath`) and
`nextPathToken` (used by the setter) scan to the next delimiter, return
the segment before it, and skip exactly one delimiter character.  With
the unconsumed suffix of the path as the state, one step returns the
token together with the remaining suffix; the Go `last` flag
(`next >= len(p)`) is exactly emptiness of that remaining suffix. -/

theorem takeWhile_len_le (p : Char → Bool) :
    ∀ l : List Char, (l.takeWhile p).length ≤ l.length := by
  intro l
  induction l with
  | nil => simp
  | cons c cs ih =>
    simp only [List.takeWhile]
    split
    · simpa using Nat.succ_le_succ ih
    · simp

/-- One tokenizer step on the unconsumed suffix of the path. -/
def nextTok (delim : Char) (s : List Char) : Option (List Char × List Char) :=
  match s with
  | [] => none
  | _ =>
    let tok := s.takeWhile fun c => c ≠ delim
    match s.drop tok.length with
    | _ :: r => some (tok, r)
    | [] => some (tok, [])

/-- The token list of a path (what repeated tokenizer steps produce). -/
def pathToks (delim : Char) (s : List Char) : List (List Char) :=
  match h : nextTok delim s with
  | none => []
  | some (tok, rest) => tok :: pathToks delim rest
termination_by s.length
decreasing_by
  simp only [nextTok] at h
  cases s with
  | nil => simp at h
  | cons c cs =>
    simp only at h
    split at h
    case _ heq =>
      cases h
      have hlen := congrArg List.length heq
      simp at hlen
      have := takeWhile_len_le (fun c => decide (c ≠ delim)) (c :: cs)
      simp at hlen ⊢
      omega
    case _ heq =>
      cases h
      simp

theorem nextTok_rest_lt {delim : Char} {s tok rest : List Char}
    (h : nextTok delim s = some (tok, rest)) : rest.length < s.length := by
  simp only [nextTok] at h
  cases s with
  | nil => simp at h
  | cons c cs =>
    simp only at h
    split at h
    case _ heq =>
      cases h
      have hlen := congrArg List.length heq
      have := takeWhile_len_le (fun c => decide (c ≠ delim)) (c :: cs)
      simp at hlen this ⊢
      omega
    case _ heq =>
      cases h
      simp

/-! ### The setter (`jvSetValueByPath`, `jvSetArrayValue`) -/

/-- The grow loop inside `jvSetArrayValue`: a do-while that appends one
`nil` hole unconditionally and keeps appending while `len <= id`. -/
def growLoop (elems : List Value) (id : Nat) : List Value :=
  if (elems ++ [Value.null]).length ≤ id then growLoop (elems ++ [Value.null]) id
  else elems ++ [Value.null]
termination_by id + 1 - elems.length
decreasing_by
  rename_i h
  simp only [List.length_append, List.length_cons, List.length_nil] at h ⊢
  omega

/-- Model of `jvSetArrayValue`.  The Go guard is
`id >= 0 && len(*jArray) >= 0`; the second conjunct is vacuously true and
is dropped.  Returns the updated slice and the reported success. -/
def jvSetArrayValue (elems : List Value) (id : Int) (v : Value) :
    List Value × Bool :=
  if 0 ≤ id then ((growLoop elems id.toNat).set id.toNat v, true)
  else (elems, false)

/-- Model of the recursive closure `set` inside `jvSetValueByPath`.
The first component is the subtree as the caller's memory sees it after
the call (Go mutates maps in place before recursing, so a failing call can
still leave freshly created intermediate objects behind); the second is
the success flag. -/
def jvSet (delim : Char) (v : Value) (cur : Value) (s : List Char) :
    Value × Bool :=
  match h : nextTok delim s with
  | none => (cur, false)
  | some (tok, rest) =>
    if tok = [] then (cur, false)
    else
      match cur with
      | .obj fields =>
        if rest = [] then (.obj (objInsert tok v fields), true)
        else
          match objLookup tok fields with
          | none =>
            let p := jvSet delim v (.obj []) rest
            (.obj (objInsert tok p.1 (objInsert tok (.obj []) fields)), p.2)
          | some .null =>
            let p := jvSet delim v (.obj []) rest
            (.obj (objInsert tok p.1 (objInsert tok (.obj []) fields)), p.2)
          | some child =>
            let p := jvSet delim v child rest
            (.obj (objInsert tok p.1 fields), p.2)
      | .arr elems =>
        match goAtoi tok with
        | none => (cur, false)
        | some id =>
          if rest = [] then
            if id < 0 then (.arr (elems ++ [v]), true)
            else (.arr (jvSetArrayValue elems id v).1, true)
          else
            if id < 0 ∨ (elems.length : Int) ≤ id then (cur, false)
            else
              let p := jvSet delim v (elems.getD id.toNat .null) rest
              (.arr (elems.set id.toNat p.1), p.2)
      | _ => (cur, false)
termination_by s.length
decreasing_by all_goals exact nextTok_rest_lt h

/-- Model of `SetByPath` (via `jvSetValueByPath`): the caller-visible tree
after the call together with the success flag. -/
def SetByPath (root : Value) (p : List Char) (v : Value) (delim : Char) :
    Value × Bool :=
  jvSet delim v root p

/-! ### The readers (`GetByPath`, `PathExists`) -/

/-- The traversal loop of `GetByPath`; an empty token breaks out of the
loop returning the current node, just as `pathIter` does in Go. -/
def getLoop (delim : Char) (cur : Value) (s : List Char) : Value :=
  match h : nextTok delim s with
  | none => cur
  | some (tok, rest) =>
    if tok = [] then cur
    else
      match cur with
      | .obj fields =>
        match objLookup tok fields with
        | some child => getLoop delim child rest
        | none => .null
      | .arr elems =>
        match goAtoi tok with
        | none => .null
        | some idx =>
          if idx < 0 ∨ (elems.length : Int) ≤ idx then .null
          else getLoop delim (elems.getD idx.toNat .null) rest
      | _ => .null
termination_by s.length
decreasing_by all_goals exact nextTok_rest_lt h

/-- Model of `GetByPath`. -/
def GetByPath (j : Value) (p : List Char) (delim : Char) : Value :=
  if p = [] then j else getLoop delim j p

/-- The traversal loop of `PathExists`. -/
def existsLoop (delim : Char) (cur : Value) (s : List Char) : Bool :=
  match h : nextTok delim s with
  | none => true
  | some (tok, rest) =>
    if tok = [] then true
    else
      match cur with
      | .obj fields =>
        match objLookup tok fields with
        | some child => existsLoop delim child rest
        | none => false
      | .arr elems =>
        match goAtoi tok with
        | none => false
        | some idx =>
          if idx < 0 ∨ (elems.length : Int) ≤ idx then false
          else existsLoop delim (elems.getD idx.toNat .null) rest
      | _ => false
termination_by s.length
decreasing_by all_goals exact nextTok_rest_lt h

/-- Model of `PathExists`. -/
def PathExists (j : Value) (p : List Char) (delim : Char) : Bool :=
  if p = [] then true else existsLoop delim j p

/-! ### Structural equality (`reflect.DeepEqual`, `JSON.Equals`)

`reflect.DeepEqual` on decoded JSON data compares nulls, booleans,
numbers and strings by value, slices pointwise, and maps by key set with
recursively equal values (map internal order is irrelevant).  On
association lists with unique keys this is: equal lengths and every
binding of the left map present in the right with a deeply equal value. -/

mutual

def deepEqual : Value → Value → Bool
  | .null, .null => true
  | .bool a, .bool b => a == b
  | .num a, .num b => a == b
  | .str a, .str b => a == b
  | .arr a, .arr b => a.length == b.length && deepEqualElems a b
  | .obj a, .obj b => a.length == b.length && deepEqualFields a b
  | _, _ => false

def deepEqualElems : List Value → List Value → Bool
  | [], _ => true
  | _, [] => false
  | a :: as, b :: bs => deepEqual a b && deepEqualElems as bs

def deepEqualFields : List (List Char × Value) → List (List Char × Value) → Bool
  | [], _ => true
  | (k, v) :: r, b => deepEqualAt k v b && deepEqualFields r b

def deepEqualAt (k : List Char) (v : Value) :
    List (List Char × Value) → Bool
  | [] => false
  | (k2, v2) :: r => if k = k2 then deepEqual v v2 else deepEqualAt k v r

end

/-! ### Deep merge (`jvDeepMerge`) -/

mutual

/-- Model of `jvDeepMerge`, current revision: object/object merges
recursively per key; array/array appends the non-nil elements of the
source not already (deep-)equal to a non-nil element of the accumulating
destination; a destination that is neither object nor array is replaced
by the source; a container destination with a source of the other kind is
left unchanged. -/
def jvDeepMerge : Value → Value → Value
  | .obj f1, v2 =>
    match v2 with
    | .obj f2 => .obj (mergeFields f1 f2)
    | _ => .obj f1
  | .arr a1, v2 =>
    match v2 with
    | .arr a2 => .arr (mergeArr a1 a2)
    | _ => .arr a1
  | _, v2 => v2

/-- The object loop: for every source binding, recurse when the key
exists in the destination, otherwise insert the source value.  (The Go
loop ranges over an unordered map; per-key independence makes the result
content independent of that order, and the model folds the bindings in
list order.) -/
def mergeFields (f1 : List (List Char × Value)) :
    List (List Char × Value) → List (List Char × Value)
  | [] => f1
  | (k, v2) :: rest =>
    match objLookup k f1 with
    | some v1 => mergeFields (objInsert k (jvDeepMerge v1 v2) f1) rest
    | none => mergeFields (objInsert k v2 f1) rest

/-- The array loop of the current revision: nil source elements are
skipped; a non-nil source element is appended unless a non-nil element of
the accumulating destination is deep-equal to it. -/
def mergeArr (a1 : List Value) : List Value → List Value
  | [] => a1
  | v2 :: rest =>
    match v2 with
    | .null => mergeArr a1 rest
    | _ =>
      if a1.any fun v1 =>
          match v1 with
          | .null => false
          | _ => deepEqual v1 v2 then
        mergeArr a1 rest
      else mergeArr (a1 ++ [v2]) rest

end

/-! ### The canonical string (`canonicalString`)

`canonicalString` renders null and booleans as keywords, numbers and
strings as their `json.Marshal` literals, arrays as bracketed
comma-joined elements, and objects as braced comma-joined
`quotedKey:value` pairs with the keys in ascending (raw) string order.
`json.Marshal` escapes, inside string literals: quote, backslash,
newline/carriage-return/tab as two-character escapes, other control
characters, the HTML-sensitive characters, and the line/paragraph
separators as six-character lowercase hex escapes. -/

def hexDigitCh (n : Nat) : Char :=
  if n < 10 then Char.ofNat (('0').toNat + n) else Char.ofNat (('a').toNat + (n - 10))

/-- One character of a string value, escaped as `json.Marshal` does. -/
def escChar (c : Char) : List Char :=
  if c = '"' then ['\\', '"']
  else if c = '\\' then ['\\', '\\']
  else if c = '\n' then ['\\', 'n']
  else if c = '\r' then ['\\', 'r']
  else if c = '\t' then ['\\', 't']
  else if c.toNat < 0x20 ∨ c = '<' ∨ c = '>' ∨ c = '&'
      ∨ c.toNat = 0x2028 ∨ c.toNat = 0x2029 then
    ['\\', 'u', hexDigitCh (c.toNat / 4096 % 16), hexDigitCh (c.toNat / 256 % 16),
      hexDigitCh (c.toNat / 16 % 16), hexDigitCh (c.toNat % 16)]
  else [c]

/-- Escape every character of a string body. -/
def escStr : List Char → List Char
  | [] => []
  | c :: r => escChar c ++ escStr r

/-- A JSON string literal: quoted, with every character escaped. -/
def quoteStr (s : List Char) : List Char :=
  '"' :: (escStr s ++ ['"'])

/-- Decimal digits of a natural number, most significant first. -/
def natChars (n : Nat) : List Char :=
  if n < 10 then [Char.ofNat (('0').toNat + n)]
  else natChars (n / 10) ++ [Char.ofNat (('0').toNat + n % 10)]
termination_by n
decreasing_by omega

/-- The `json.Marshal` literal of a number (integer-valued; see the
header note on the numeric model). -/
def intChars (i : Int) : List Char :=
  if i < 0 then '-' :: natChars i.natAbs else natChars i.natAbs

/-- Strict lexicographic order on strings (Go `<` on strings). -/
def lexLt : List Char → List Char → Bool
  | [], [] => false
  | [], _ :: _ => true
  | _ :: _, [] => false
  | a :: as, b :: bs => if a < b then true else if b < a then false else lexLt as bs

/-- Stable insertion of a rendered field into a key-sorted field list
(model of the `sort.Strings` key ordering in `canonicalString`). -/
def insFieldStr (p : List Char × List Char) :
    List (List Char × List Char) → List (List Char × List Char)
  | [] => [p]
  | q :: r => if lexLt q.1 p.1 then q :: insFieldStr p r else p :: q :: r

/-- Key-sort of rendered fields. -/
def sortFieldStrs : List (List Char × List Char) → List (List Char × List Char)
  | [] => []
  | p :: r => insFieldStr p (sortFieldStrs r)

def joinFieldStrsTail : List (List Char × List Char) → List Char
  | [] => []
  | p :: r => ',' :: (quoteStr p.1 ++ ':' :: (p.2 ++ joinFieldStrsTail r))

/-- Comma-join of rendered object fields as `quotedKey:value`. -/
def joinFieldStrs : List (List Char × List Char) → List Char
  | [] => []
  | p :: r => quoteStr p.1 ++ ':' :: (p.2 ++ joinFieldStrsTail r)

mutual

/-- Model of `canonicalString`. -/
def canonicalString : Value → List Char
  | .bool true => ['t', 'r', 'u', 'e']
  | .bool false => ['f', 'a', 'l', 's', 'e']
  | .null => ['n', 'u', 'l', 'l']
  | .num i => intChars i
  | .str s => quoteStr s
  | .arr es => '[' :: (canonElems es ++ [']'])
  | .obj fs => '{' :: (joinFieldStrs (sortFieldStrs (canonPairs fs)) ++ ['}'])

/-- Comma-joined canonical strings of array elements. -/
def canonElems : List Value → List Char
  | [] => []
  | e :: es => canonicalString e ++ canonElemsTail es

def canonElemsTail : List Value → List Char
  | [] => []
  | e :: es => ',' :: (canonicalString e ++ canonElemsTail es)

/-- Each object field with its value rendered (the keys are sorted and
joined afterwards, exactly as the Go code first renders `x[k]` per sorted
key). -/
def canonPairs : List (List Char × Value) → List (List Char × List Char)
  | [] => []
  | (k, v) :: r => (k, canonicalString v) :: canonPairs r

end

/-! ### Normalization (`normalizeValue`)

Numbers are already in the canonical numeric representation in this
model (see the header), so the numeric coercion cases of the Go switch
are identities here; `json.Number` does not arise in decoded values. -/

/-- Stable insertion by canonical string (model of `sort.SliceStable`
with `canonicalString(arr[i]) < canonicalString(arr[j])` as the order). -/
def insCanon (x : Value) : List Value → List Value
  | [] => [x]
  | y :: ys =>
    if lexLt (canonicalString y) (canonicalString x) then y :: insCanon x ys
    else x :: y :: ys

/-- Stable sort of array elements by canonical string. -/
def sortCanon : List Value → List Value
  | [] => []
  | x :: xs => insCanon x (sortCanon xs)

mutual

/-- Model of `normalizeValue`. -/
def normalizeValue : Value → Value
  | .obj fs => .obj (normFields fs)
  | .arr es => .arr (sortCanon (normElems es))
  | v => v

def normElems : List Value → List Value
  | [] => []
  | e :: es => normalizeValue e :: normElems es

def normFields : List (List Char × Value) → List (List Char × Value)
  | [] => []
  | (k, v) :: r => (k, normalizeValue v) :: normFields r

end

/-! ### Well-formedness

A value is well formed when every object in it has pairwise distinct
keys — the invariant every value decoded from a Go map satisfies by
construction. -/

def keysFresh (k : List Char) : List (List Char × Value) → Bool
  | [] => true
  | (k2, _) :: r => k ≠ k2 && keysFresh k r

mutual

def wfValue : Value → Bool
  | .null => true
  | .bool _ => true
  | .num _ => true
  | .str _ => true
  | .arr es => wfElems es
  | .obj fs => wfFields fs

def wfElems : List Value → Bool
  | [] => true
  | e :: es => wfValue e && wfElems es

def wfFields : List (List Char × Value) → Bool
  | [] => true
  | (k, v) :: r => keysFresh k r && wfValue v && wfFields r

end

/-! ### Kind tests -/

def Value.isObjB : Value → Bool
  | .obj _ => true
  | _ => false

def Value.isArrB : Value → Bool
  | .arr _ => true
  | _ => false

/-- The elements the array loop of `jvDeepMerge` appends to a
destination that currently holds `base`: the non-nil source elements, in
source order, that no non-nil element of the accumulating destination
deep-equals (so a value already present, or appended once, is never
appended again). -/
def mergeExtra (base : List Value) : List Value → List Value
  | [] => []
  | v :: rest =>
    match v with
    | .null => mergeExtra base rest
    | _ =>
      if base.any fun w =>
          match w with
          | .null => false
          | _ => deepEqual w v then
        mergeExtra base rest
      else v :: mergeExtra (base ++ [v]) rest

/-! ### One-step unfolding lemmas

`jvSet`, `getLoop` and `existsLoop` are defined by well-founded recursion
on the unconsumed path, so they do not reduce definitionally; these
lemmas expose one traversal step each. -/

theorem jvSet_stop {delim : Char} {v cur : Value} {s : List Char}
    (h : nextTok delim s = none) : jvSet delim v cur s = (cur, false) := by
  rw [jvSet.eq_def]
  split
  case _ => rfl
  case _ tok rest heq => exact absurd (h.symm.trans heq) (by simp)

theorem jvSet_emptyTok {delim : Char} {v cur : Value} {s rest : List Char}
    (h : nextTok delim s = some ([], rest)) : jvSet delim v cur s = (cur, false) := by
  rw [jvSet.eq_def]
  split
  case _ heq => exact absurd (h.symm.trans heq) (by simp)
  case _ tok r heq =>
    cases h.symm.trans heq
    rfl

theorem jvSet_obj_last {delim : Char} {v : Value} {s tok : List Char}
    {fields : List (List Char × Value)}
    (h : nextTok delim s = some (tok, [])) (ht : tok ≠ []) :
    jvSet delim v (.obj fields) s = (.obj (objInsert tok v fields), true) := by
  rw [jvSet.eq_def]
  split
  case _ heq => exact absurd (h.symm.trans heq) (by simp)
  case _ tok2 r heq =>
    cases h.symm.trans heq
    rw [if_neg ht]
    rfl

theorem jvSet_obj_mid_new {delim : Char} {v : Value} {s tok rest : List Char}
    {fields : List (List Char × Value)}
    (h : nextTok delim s = some (tok, rest)) (ht : tok ≠ []) (hr : rest ≠ [])
    (hlook : objLookup tok fields = none ∨ objLookup tok fields = some .null) :
    jvSet delim v (.obj fields) s =
      (.obj (objInsert tok (jvSet delim v (.obj []) rest).1
          (objInsert tok (.obj []) fields)),
        (jvSet delim v (.obj []) rest).2) := by
  rw [jvSet.eq_def]
  split
  case _ heq => exact absurd (h.symm.trans heq) (by simp)
  case _ tok2 r heq =>
    cases h.symm.trans heq
    rw [if_neg ht]
    simp only
    rw [if_neg hr]
    rcases hlook with hlook | hlook <;> rw [hlook]

theorem jvSet_obj_mid_old {delim : Char} {v : Value} {s tok rest : List Char}
    {fields : List (List Char × Value)} {child : Value}
    (h : nextTok delim s = some (tok, rest)) (ht : tok ≠ []) (hr : rest ≠ [])
    (hlook : objLookup tok fields = some child) (hc : child ≠ .null) :
    jvSet delim v (.obj fields) s =
      (.obj (objInsert tok (jvSet delim v child rest).1 fields),
        (jvSet delim v child rest).2) := by
  rw [jvSet.eq_def]
  split
  case _ heq => exact absurd (h.symm.trans heq) (by simp)
  case _ tok2 r heq =>
    cases h.symm.trans heq
    rw [if_neg ht]
    simp only
    rw [if_neg hr, hlook]
    cases child with
    | null => exact absurd rfl hc
    | bool b => rfl
    | num n => rfl
    | str cs => rfl
    | arr es => rfl
    | obj fs => rfl

theorem jvSet_arr_badTok {delim : Char} {v : Value} {s tok rest : List Char}
    {elems : List Value}
    (h : nextTok delim s = some (tok, rest)) (ht : tok ≠ [])
    (ha : goAtoi tok = none) :
    jvSet delim v (.arr elems) s = (.arr elems, false) := by
  rw [jvSet.eq_def]
  split
  case _ heq => exact absurd (h.symm.trans heq) (by simp)
  case _ tok2 r heq =>
    cases h.symm.trans heq
    rw [if_neg ht]
    simp only [ha]

theorem jvSet_arr_last_neg {delim : Char} {v : Value} {s tok : List Char}
    {elems : List Value} {id : Int}
    (h : nextTok delim s = some (tok, [])) (ht : tok ≠ [])
    (ha : goAtoi tok = some id) (hneg : id < 0) :
    jvSet delim v (.arr elems) s = (.arr (elems ++ [v]), true) := by
  rw [jvSet.eq_def]
  split
  case _ heq => exact absurd (h.symm.trans heq) (by simp)
  case _ tok2 r heq =>
    cases h.symm.trans heq
    rw [if_neg ht]
    simp only [ha]
    rw [if_pos hneg]
    rfl

theorem jvSet_arr_last_nonneg {delim : Char} {v : Value} {s tok : List Char}
    {elems : List Value} {id : Int}
    (h : nextTok delim s = some (tok, [])) (ht : tok ≠ [])
    (ha : goAtoi tok = some id) (hpos : 0 ≤ id) :
    jvSet delim v (.arr elems) s =
      (.arr ((growLoop elems id.toNat).set id.toNat v), true) := by
  rw [jvSet.eq_def]
  split
  case _ heq => exact absurd (h.symm.trans heq) (by simp)
  case _ tok2 r heq =>
    cases h.symm.trans heq
    rw [if_neg ht]
    simp only [ha]
    rw [if_neg (by omega : ¬ id < 0)]
    simp [jvSetArrayValue, if_pos hpos]

theorem jvSet_arr_mid_oob {delim : Char} {v : Value} {s tok rest : List Char}
    {elems : List Value} {id : Int}
    (h : nextTok delim s = some (tok, rest)) (ht : tok ≠ []) (hr : rest ≠ [])
    (ha : goAtoi tok = some id) (hoob : id < 0 ∨ (elems.length : Int) ≤ id) :
    jvSet delim v (.arr elems) s = (.arr elems, false) := by
  rw [jvSet.eq_def]
  split
  case _ heq => exact absurd (h.symm.trans heq) (by simp)
  case _ tok2 r heq =>
    cases h.symm.trans heq
    rw [if_neg ht]
    simp only [ha]
    rw [if_neg hr, if_pos hoob]

theorem jvSet_arr_mid_in {delim : Char} {v : Value} {s tok rest : List Char}
    {elems : List Value} {id : Int}
    (h : nextTok delim s = some (tok, rest)) (ht : tok ≠ []) (hr : rest ≠ [])
    (ha : goAtoi tok = some id) (h0 : 0 ≤ id) (hlt : id < (elems.length : Int)) :
    jvSet delim v (.arr elems) s =
      (.arr (elems.set id.toNat (jvSet delim v (elems.getD id.toNat .null) rest).1),
        (jvSet delim v (elems.getD id.toNat .null) rest).2) := by
  rw [jvSet.eq_def]
  split
  case _ heq => exact absurd (h.symm.trans heq) (by simp)
  case _ tok2 r heq =>
    cases h.symm.trans heq
    rw [if_neg ht]
    simp only [ha]
    rw [if_neg hr, if_neg (by omega : ¬ (id < 0 ∨ (elems.length : Int) ≤ id))]

theorem jvSet_scalar {delim : Char} {v cur : Value} {s tok rest : List Char}
    (h : nextTok delim s = some (tok, rest)) (ht : tok ≠ [])
    (hobj : cur.isObjB = false) (harr : cur.isArrB = false) :
    jvSet delim v cur s = (cur, false) := by
  rw [jvSet.eq_def]
  split
  case _ heq => exact absurd (h.symm.trans heq) (by simp)
  case _ tok2 r heq =>
    cases h.symm.trans heq
    rw [if_neg ht]
    cases cur with
    | null => rfl
    | bool b => rfl
    | num n => rfl
    | str cs => rfl
    | arr es => simp [Value.isArrB] at harr
    | obj fs => simp [Value.isObjB] at hobj

theorem getLoop_stop {delim : Char} {cur : Value} {s : List Char}
    (h : nextTok delim s = none) : getLoop delim cur s = cur := by
  rw [getLoop.eq_def]
  split
  case _ => rfl
  case _ tok rest heq => exact absurd (h.symm.trans heq) (by simp)

theorem getLoop_emptyTok {delim : Char} {cur : Value} {s rest : List Char}
    (h : nextTok delim s = some ([], rest)) : getLoop delim cur s = cur := by
  rw [getLoop.eq_def]
  split
  case _ heq => exact absurd (h.symm.trans heq) (by simp)
  case _ tok r heq =>
    cases h.symm.trans heq
    rfl

theorem getLoop_obj_hit {delim : Char} {s tok rest : List Char}
    {fields : List (List Char × Value)} {child : Value}
    (h : nextTok delim s = some (tok, rest)) (ht : tok ≠ [])
    (hlook : objLookup tok fields = some child) :
    getLoop delim (.obj fields) s = getLoop delim child rest := by
  rw [getLoop.eq_def]
  split
  case _ heq => exact absurd (h.symm.trans heq) (by simp)
  case _ tok2 r heq =>
    cases h.symm.trans heq
    rw [if_neg ht]
    simp only [hlook]

theorem getLoop_obj_miss {delim : Char} {s tok rest : List Char}
    {fields : List (List Char × Value)}
    (h : nextTok delim s = some (tok, rest)) (ht : tok ≠ [])
    (hlook : objLookup tok fields = none) :
    getLoop delim (.obj fields) s = .null := by
  rw [getLoop.eq_def]
  split
  case _ heq => exact absurd (h.symm.trans heq) (by simp)
  case _ tok2 r heq =>
    cases h.symm.trans heq
    rw [if_neg ht]
    simp only [hlook]

theorem getLoop_arr_in {delim : Char} {s tok rest : List Char}
    {elems : List Value} {id : Int}
    (h : nextTok delim s = some (tok, rest)) (ht : tok ≠ [])
    (ha : goAtoi tok = some id) (h0 : 0 ≤ id) (hlt : id < (elems.length : Int)) :
    getLoop delim (.arr elems) s = getLoop delim (elems.getD id.toNat .null) rest := by
  rw [getLoop.eq_def]
  split
  case _ heq => exact absurd (h.symm.trans heq) (by simp)
  case _ tok2 r heq =>
    cases h.symm.trans heq
    rw [if_neg ht]
    simp only [ha]
    rw [if_neg (by omega : ¬ (id < 0 ∨ (elems.length : Int) ≤ id))]

theorem getLoop_arr_out {delim : Char} {s tok rest : List Char}
    {elems : List Value} {id : Int}
    (h : nextTok delim s = some (tok, rest)) (ht : tok ≠ [])
    (ha : goAtoi tok = some id) (hoob : id < 0 ∨ (elems.length : Int) ≤ id) :
    getLoop delim (.arr elems) s = .null := by
  rw [getLoop.eq_def]
  split
  case _ heq => exact absurd (h.symm.trans heq) (by simp)
  case _ tok2 r heq =>
    cases h.symm.trans heq
    rw [if_neg ht]
    simp only [ha]
    rw [if_pos hoob]

theorem getLoop_arr_badTok {delim : Char} {s tok rest : List Char}
    {elems : List Value}
    (h : nextTok delim s = some (tok, rest)) (ht : tok ≠ [])
    (ha : goAtoi tok = none) :
    getLoop delim (.arr elems) s = .null := by
  rw [getLoop.eq_def]
  split
  case _ heq => exact absurd (h.symm.trans heq) (by simp)
  case _ tok2 r heq =>
    cases h.symm.trans heq
    rw [if_neg ht]
    simp only [ha]

/-! ## Claims -/

/-- C1 — the claim is what the repository's own functional test
(`TestSetByPath_ArrayIndexingAndPush`) expects, but the strict
object-creation policy of the current `jvSetValueByPath` makes the
missing intermediate `a` an empty object, so `set({}, "a.5", v)` yields
the object `a = ("5" -> v)` and no array is ever created.  This theorem
evaluates the setter at the claimed input. -/
theorem set_empty_a5_makes_object (v : Value) :
    SetByPath (.obj []) ("a.5").data v '.' =
      (.obj [(("a").data, .obj [(("5").data, v)])], true) := by
  have h1 : nextTok '.' ("a.5").data = some (("a").data, ("5").data) := rfl
  have h2 : nextTok '.' ("5").data = some (("5").data, []) := rfl
  rw [SetByPath,
    @jvSet_obj_mid_new '.' v (("a.5").data) (("a").data) (("5").data) []
      h1 (by decide) (by decide) (Or.inl rfl),
    jvSet_obj_last h2 (by decide)]
  rfl

/-- C3 — on an in-bounds terminal array index the do-while inside
`jvSetArrayValue` appends one `nil` hole before testing its condition,
so writing index 0 of a length-2 array yields length 3, not an
unchanged length: the slot is overwritten but a `Null` is appended. -/
theorem set_inbounds_index_appends_hole :
    jvSet '.' (.num 9) (.arr [.num 1, .num 2]) ("0").data =
      (.arr [.num 9, .num 2, .null], true) := by
  have h1 : nextTok '.' ("0").data = some (("0").data, []) := rfl
  have ha : goAtoi ("0").data = some 0 := rfl
  rw [jvSet_arr_last_nonneg h1 (by decide) ha (by decide)]
  rw [show growLoop [Value.num 1, Value.num 2] (Int.toNat 0) =
    [Value.num 1, Value.num 2, Value.null] from by rw [growLoop.eq_def]; simp]
  rfl

/-- C6 (counterexample) — `deepMerge` of an object destination with a
scalar source leaves the destination unchanged instead of replacing it
with the source, because the replacement `*jv1 = *jv2` sits in the
`default` branch of a switch on the destination kind. -/
theorem deepMerge_object_scalar_keeps_dst :
    jvDeepMerge (.obj [(("a").data, .num 1)]) (.bool true) =
        .obj [(("a").data, .num 1)] ∧
      Value.obj [(("a").data, .num 1)] ≠ .bool true := by
  exact ⟨rfl, by simp⟩

/-- C6 (amended) — when the two kinds do not match as containers,
`deepMerge` replaces the destination with the source only when the
destination is itself neither object nor array; an object or array
destination paired with a source of a different kind is left unchanged. -/
theorem deepMerge_kind_mismatch (dst src : Value)
    (hobj : (dst.isObjB && src.isObjB) = false)
    (harr : (dst.isArrB && src.isArrB) = false) :
    jvDeepMerge dst src = if dst.isObjB || dst.isArrB then dst else src := by
  cases dst <;> cases src <;>
    simp_all [jvDeepMerge, Value.isObjB, Value.isArrB]

/-- Witness for `deepMerge_kind_mismatch` at an object destination and a
boolean source. -/
theorem deepMerge_kind_mismatch_witness :
    ((Value.obj []).isObjB && (Value.bool true).isObjB) = false ∧
      ((Value.obj []).isArrB && (Value.bool true).isArrB) = false ∧
      jvDeepMerge (.obj []) (.bool true) =
        (if (Value.obj []).isObjB || (Value.obj []).isArrB then Value.obj []
          else Value.bool true) :=
  ⟨rfl, rfl, deepMerge_kind_mismatch (.obj []) (.bool true) rfl rfl⟩

/-- C7 (counterexample) — a `Null` element of the source array is never
appended by `deepMerge` (the loop skips `nil` source elements), so
merging `[null]` into `[]` yields `[]`, not `[null]` as the claim
(`Null` elements included) requires. -/
theorem deepMerge_array_skips_null :
    jvDeepMerge (.arr []) (.arr [.null]) = .arr [] ∧
      Value.arr [] ≠ .arr [.null] := by
  exact ⟨rfl, by simp⟩

theorem mergeArr_eq_extra (a2 : List Value) :
    ∀ a1, mergeArr a1 a2 = a1 ++ mergeExtra a1 a2 := by
  induction a2 with
  | nil => intro a1; simp [mergeArr, mergeExtra]
  | cons v rest ih =>
    intro a1
    cases v with
    | null => simpa [mergeArr, mergeExtra] using ih a1
    | bool b =>
      simp only [mergeArr, mergeExtra]
      split
      · exact ih a1
      · rw [ih (a1 ++ [Value.bool b])]; simp
    | num n =>
      simp only [mergeArr, mergeExtra]
      split
      · exact ih a1
      · rw [ih (a1 ++ [Value.num n])]; simp
    | str s =>
      simp only [mergeArr, mergeExtra]
      split
      · exact ih a1
      · rw [ih (a1 ++ [Value.str s])]; simp
    | arr es =>
      simp only [mergeArr, mergeExtra]
      split
      · exact ih a1
      · rw [ih (a1 ++ [Value.arr es])]; simp
    | obj fs =>
      simp only [mergeArr, mergeExtra]
      split
      · exact ih a1
      · rw [ih (a1 ++ [Value.obj fs])]; simp

/-- C7 (amended) — merging two arrays keeps the destination elements
first, in order, and appends exactly the non-`Null` source elements, in
source order, that are not already deep-equal to a non-`Null` element of
the destination-so-far (so a duplicate in the source is appended at most
once, and `Null` source elements never). -/
theorem deepMerge_array_characterization (a1 a2 : List Value) :
    jvDeepMerge (.arr a1) (.arr a2) = .arr (a1 ++ mergeExtra a1 a2) := by
  simpa [jvDeepMerge] using mergeArr_eq_extra a2 a1

theorem takeWhile_all {p : Char → Bool} :
    ∀ {l : List Char}, l.all p = true → l.takeWhile p = l := by
  intro l h
  induction l with
  | nil => rfl
  | cons c cs ih =>
    simp only [List.all_cons, Bool.and_eq_true] at h
    simp [List.takeWhile_cons, h.1, ih h.2]

/-- A delimiter-free nonempty path is consumed as one final token. -/
theorem nextTok_whole {delim : Char} {tok : List Char} (ht : tok ≠ [])
    (hall : tok.all (fun c => c ≠ delim) = true) :
    nextTok delim tok = some (tok, []) := by
  cases tok with
  | nil => exact absurd rfl ht
  | cons c cs =>
    simp only [nextTok]
    rw [takeWhile_all hall]
    simp

theorem existsLoop_nil (delim : Char) (cur : Value) :
    existsLoop delim cur [] = true := by
  rw [existsLoop.eq_def]
  rfl

/-- C10 — at an array node addressed by a final token, `PathExists`
succeeds exactly when the token parses as a non-negative in-bounds
base-10 index; the element stored there plays no role, so an in-bounds
`Null` hole counts as existing. -/
theorem pathExists_array_final (delim : Char) (elems : List Value)
    (tok : List Char) (ht : tok ≠ [])
    (hall : tok.all (fun c => c ≠ delim) = true) :
    PathExists (.arr elems) tok delim = true ↔
      ∃ i : Int, goAtoi tok = some i ∧ 0 ≤ i ∧ i < (elems.length : Int) := by
  have hstep := nextTok_whole ht hall
  unfold PathExists
  rw [if_neg ht, existsLoop.eq_def]
  split
  case _ heq => exact absurd (hstep.symm.trans heq) (by simp)
  case _ tok2 r heq =>
    cases hstep.symm.trans heq
    rw [if_neg ht]
    cases hA : goAtoi tok with
    | none => simp [hA]
    | some idx =>
      simp only [hA]
      by_cases hb : idx < 0 ∨ (elems.length : Int) ≤ idx
      · rw [if_pos hb]
        simp only [Option.some.injEq]
        constructor
        · intro hfalse; cases hfalse
        · rintro ⟨i, rfl, h1, h2⟩; omega
      · rw [if_neg hb, existsLoop_nil]
        simp only [Option.some.injEq, true_iff]
        exact ⟨idx, rfl, by omega, by omega⟩

/-- Witness for `pathExists_array_final`: an in-bounds `Null` hole
addressed by the final token `0` is reported as existing. -/
theorem pathExists_array_final_witness :
    (("0").data ≠ ([] : List Char)) ∧
      (("0").data.all (fun c => c ≠ '.') = true) ∧
      PathExists (.arr [.null]) ("0").data '.' = true :=
  ⟨by decide, by decide,
    (pathExists_array_final '.' [.null] ("0").data (by decide) (by decide)).mpr
      ⟨0, rfl, by decide, by decide⟩⟩

/-- C2 — at an object node with a non-final token whose binding is
absent or `Null`, the setter stores a fresh empty object under the token
and recurses into that empty object: the child handed to the recursive
call is `Value.obj []` unconditionally, never an array, whatever the
shape of the token. -/
theorem set_strict_object_intermediate (delim : Char) (v : Value)
    (fields : List (List Char × Value)) (s tok rest : List Char)
    (hstep : nextTok delim s = some (tok, rest)) (ht : tok ≠ [])
    (hr : rest ≠ [])
    (hmiss : objLookup tok fields = none ∨ objLookup tok fields = some .null) :
    jvSet delim v (.obj fields) s =
      (.obj (objInsert tok (jvSet delim v (.obj []) rest).1
          (objInsert tok (.obj []) fields)),
        (jvSet delim v (.obj []) rest).2) :=
  jvSet_obj_mid_new hstep ht hr hmiss

/-- Witness for `set_strict_object_intermediate`, with the numeric
intermediate token `5` (an empty object is still created). -/
theorem set_strict_object_intermediate_witness :
    nextTok '.' ("5.0").data = some (("5").data, ("0").data) ∧
      (("5").data ≠ ([] : List Char)) ∧ (("0").data ≠ ([] : List Char)) ∧
      objLookup ("5").data [] = none ∧
      jvSet '.' (.bool true) (.obj []) ("5.0").data =
        (.obj (objInsert ("5").data
            (jvSet '.' (.bool true) (.obj []) ("0").data).1
            (objInsert ("5").data (.obj []) [])),
          (jvSet '.' (.bool true) (.obj []) ("0").data).2) :=
  ⟨rfl, by decide, by decide, rfl,
    set_strict_object_intermediate '.' (.bool true) [] (("5.0").data)
      (("5").data) (("0").data) rfl (by decide) (by decide) (Or.inl rfl)⟩

/-! ### Support lemmas for the traversal inductions -/

theorem nextTok_some_of_ne {delim : Char} {s : List Char} (hs : s ≠ []) :
    ∃ tok rest, nextTok delim s = some (tok, rest) := by
  cases s with
  | nil => exact absurd rfl hs
  | cons c cs =>
    simp only [nextTok]
    split
    · exact ⟨_, _, rfl⟩
    · exact ⟨_, _, rfl⟩

theorem pathToks_stop {delim : Char} {s : List Char}
    (h : nextTok delim s = none) : pathToks delim s = [] := by
  rw [pathToks.eq_def]
  split
  case _ => rfl
  case _ tok rest heq => exact absurd (h.symm.trans heq) (by simp)

theorem pathToks_cons {delim : Char} {s tok rest : List Char}
    (h : nextTok delim s = some (tok, rest)) :
    pathToks delim s = tok :: pathToks delim rest := by
  rw [pathToks.eq_def]
  split
  case _ heq => exact absurd (h.symm.trans heq) (by simp)
  case _ t r heq => cases h.symm.trans heq; rfl

theorem objLookup_insert (k : List Char) (v : Value) :
    ∀ l, objLookup k (objInsert k v l) = some v := by
  intro l
  induction l with
  | nil => simp [objInsert, objLookup]
  | cons p r ih =>
    obtain ⟨k2, w⟩ := p
    by_cases h : k = k2
    · simp [objInsert, objLookup, h]
    · simp [objInsert, objLookup, h, ih]

theorem objInsert_lookup_self {k : List Char} {child : Value} :
    ∀ {l}, objLookup k l = some child → objInsert k child l = l := by
  intro l
  induction l with
  | nil => intro h; simp [objLookup] at h
  | cons p r ih =>
    obtain ⟨k2, w⟩ := p
    intro h
    by_cases hk : k = k2
    · subst hk
      simp [objLookup] at h
      simp [objInsert, h]
    · simp [objLookup, hk] at h
      simp [objInsert, hk, ih h]

theorem set_getD_self : ∀ (l : List Value) (i : Nat), i < l.length →
    l.set i (l.getD i .null) = l := by
  intro l
  induction l with
  | nil => intro i h; simp at h
  | cons x xs ih =>
    intro i h
    cases i with
    | zero => simp
    | succ n =>
      simp only [List.length_cons] at h
      have h2 : (x :: xs).getD (n + 1) Value.null = xs.getD n Value.null := rfl
      rw [h2]
      show x :: xs.set n (xs.getD n Value.null) = x :: xs
      rw [ih n (by omega)]

theorem getD_set_self : ∀ (l : List Value) (i : Nat) (x : Value), i < l.length →
    (l.set i x).getD i .null = x := by
  intro l
  induction l with
  | nil => intro i x h; simp at h
  | cons y ys ih =>
    intro i x h
    cases i with
    | zero => simp [List.set, List.getD]
    | succ n =>
      simp only [List.length_cons] at h
      simp [List.set, List.getD]
      have := ih n x (by omega)
      simpa [List.getD] using this

theorem growLoop_length (elems : List Value) (id : Nat) :
    (growLoop elems id).length = max (elems.length + 1) (id + 1) := by
  rw [growLoop.eq_def]
  split
  case _ h =>
    rw [growLoop_length (elems ++ [Value.null]) id]
    simp only [List.length_append, List.length_cons, List.length_nil] at h ⊢
    omega
  case _ h =>
    simp only [List.length_append, List.length_cons, List.length_nil] at h ⊢
    omega
termination_by id + 1 - elems.length
decreasing_by
  rename_i h
  simp only [List.length_append, List.length_cons, List.length_nil] at h ⊢
  omega

/-- Setting into a fresh empty object succeeds whenever the remaining
path is nonempty and yields no empty token (every non-final step creates
another fresh object to recurse into, and the final step assigns). -/
theorem jvSet_fresh_ok (delim : Char) (v : Value) (s : List Char)
    (hs : s ≠ []) (hne : ([] : List Char) ∉ pathToks delim s) :
    (jvSet delim v (.obj []) s).2 = true := by
  obtain ⟨tok, rest, hstep⟩ := @nextTok_some_of_ne delim s hs
  have htoks := pathToks_cons hstep
  have ht : tok ≠ [] := by
    intro hteq
    exact hne (by rw [htoks, hteq]; exact List.mem_cons_self _ _)
  by_cases hr : rest = []
  · subst hr
    rw [jvSet_obj_last hstep ht]
  · have hrec := jvSet_fresh_ok delim v rest hr
      (fun hmem => hne (by rw [htoks]; exact List.mem_cons_of_mem _ hmem))
    rw [jvSet_obj_mid_new hstep ht hr
      (Or.inl (show objLookup tok [] = none from rfl))]
    exact hrec
termination_by s.length
decreasing_by exact nextTok_rest_lt hstep

/-- C5 (counterexample) — `set` on the empty object with path `a..b`
(an empty token between the delimiters) fails, yet the freshly created
intermediate empty object remains under `a`: the tree after the failed
call differs from the tree before it. -/
theorem set_fail_leaves_intermediate :
    jvSet '.' (.bool true) (.obj []) ("a..b").data =
        (.obj [(("a").data, .obj [])], false) ∧
      Value.obj [(("a").data, .obj [])] ≠ .obj [] := by
  constructor
  · have h1 : nextTok '.' ("a..b").data = some (("a").data, (".b").data) := rfl
    have h2 : nextTok '.' ((".b").data) = some ([], ("b").data) := rfl
    rw [@jvSet_obj_mid_new '.' (.bool true) (("a..b").data) (("a").data)
        ((".b").data) [] h1 (by decide) (by decide) (Or.inl rfl),
      jvSet_emptyTok h2]
    rfl
  · simp

/-- C5 (amended) — when the tokenization of the path contains no empty
token, a failing `set` leaves the tree exactly as it was; with an empty
token (for instance consecutive delimiters) a failing call can leave
freshly created empty intermediate objects behind. -/
theorem set_fail_unchanged (delim : Char) (v root : Value) (s : List Char)
    (hne : ([] : List Char) ∉ pathToks delim s)
    (hfail : (jvSet delim v root s).2 = false) :
    (jvSet delim v root s).1 = root := by
  cases hstep : nextTok delim s with
  | none => rw [jvSet_stop hstep]
  | some pr =>
    obtain ⟨tok, rest⟩ := pr
    have htoks := pathToks_cons hstep
    have ht : tok ≠ [] := by
      intro hteq
      exact hne (by rw [htoks, hteq]; exact List.mem_cons_self _ _)
    have hnerest : ([] : List Char) ∉ pathToks delim rest :=
      fun hmem => hne (by rw [htoks]; exact List.mem_cons_of_mem _ hmem)
    cases root with
    | obj fields =>
      by_cases hr : rest = []
      · subst hr
        rw [jvSet_obj_last hstep ht] at hfail
        cases hfail
      · rcases hlook : objLookup tok fields with _ | child
        · rw [jvSet_obj_mid_new hstep ht hr (Or.inl hlook)] at hfail ⊢
          exact absurd hfail (by rw [jvSet_fresh_ok delim v rest hr hnerest]; simp)
        · by_cases hc : child = .null
          · subst hc
            rw [jvSet_obj_mid_new hstep ht hr (Or.inr hlook)] at hfail ⊢
            exact absurd hfail (by rw [jvSet_fresh_ok delim v rest hr hnerest]; simp)
          · rw [jvSet_obj_mid_old hstep ht hr hlook hc] at hfail ⊢
            simp only at hfail ⊢
            have hrec := set_fail_unchanged delim v child rest hnerest hfail
            rw [hrec, objInsert_lookup_self hlook]
    | arr elems =>
      rcases ha : goAtoi tok with _ | id
      · rw [jvSet_arr_badTok hstep ht ha]
      · by_cases hr : rest = []
        · subst hr
          by_cases hid : id < 0
          · rw [jvSet_arr_last_neg hstep ht ha hid] at hfail
            cases hfail
          · rw [jvSet_arr_last_nonneg hstep ht ha (by omega)] at hfail
            cases hfail
        · by_cases hb : id < 0 ∨ (elems.length : Int) ≤ id
          · rw [jvSet_arr_mid_oob hstep ht hr ha hb]
          · push_neg at hb
            rw [jvSet_arr_mid_in hstep ht hr ha hb.1 hb.2] at hfail ⊢
            simp only at hfail ⊢
            have hrec := set_fail_unchanged delim v
              (elems.getD id.toNat .null) rest hnerest hfail
            rw [hrec, set_getD_self]
            have := hb.2
            omega
    | null =>
      rw [jvSet_scalar hstep ht (show (Value.null).isObjB = false from rfl)
        (show (Value.null).isArrB = false from rfl)]
    | bool b =>
      rw [jvSet_scalar hstep ht (show (Value.bool b).isObjB = false from rfl)
        (show (Value.bool b).isArrB = false from rfl)]
    | num n =>
      rw [jvSet_scalar hstep ht (show (Value.num n).isObjB = false from rfl)
        (show (Value.num n).isArrB = false from rfl)]
    | str cs =>
      rw [jvSet_scalar hstep ht (show (Value.str cs).isObjB = false from rfl)
        (show (Value.str cs).isArrB = false from rfl)]
termination_by s.length
decreasing_by all_goals exact nextTok_rest_lt hstep

/-- Witness for `set_fail_unchanged`: setting `a.b.c` through the scalar
at `a.b` fails and leaves the tree untouched. -/
theorem set_fail_unchanged_witness :
    (([] : List Char) ∉ pathToks '.' ("a.b.c").data) ∧
      (jvSet '.' (.bool true)
        (.obj [(("a").data, .obj [(("b").data, .num 7)])]) ("a.b.c").data).2
        = false ∧
      (jvSet '.' (.bool true)
        (.obj [(("a").data, .obj [(("b").data, .num 7)])]) ("a.b.c").data).1
        = .obj [(("a").data, .obj [(("b").data, .num 7)])] := by
  have htoks : pathToks '.' ("a.b.c").data = [("a").data, ("b").data, ("c").data] := by
    rw [pathToks_cons (rfl : nextTok '.' ("a.b.c").data =
        some (("a").data, ("b.c").data)),
      pathToks_cons (rfl : nextTok '.' ("b.c").data =
        some (("b").data, ("c").data)),
      pathToks_cons (rfl : nextTok '.' ("c").data = some (("c").data, [])),
      pathToks_stop (rfl : nextTok '.' ([] : List Char) = none)]
    decide
  have hne : ([] : List Char) ∉ pathToks '.' ("a.b.c").data := by
    rw [htoks]; decide
  have hfail : (jvSet '.' (.bool true)
      (.obj [(("a").data, .obj [(("b").data, .num 7)])]) ("a.b.c").data).2 = false := by
    rw [jvSet_obj_mid_old (rfl : nextTok '.' ("a.b.c").data =
        some (("a").data, ("b.c").data)) (by decide) (by decide)
        (rfl : objLookup ("a").data [(("a").data, .obj [(("b").data, .num 7)])] =
          some (.obj [(("b").data, .num 7)])) (by simp),
      jvSet_obj_mid_old (rfl : nextTok '.' ("b.c").data =
        some (("b").data, ("c").data)) (by decide) (by decide)
        (rfl : objLookup ("b").data [(("b").data, .num 7)] = some (.num 7)) (by simp),
      jvSet_scalar (rfl : nextTok '.' ("c").data = some (("c").data, []))
        (by decide) (show (Value.num 7).isObjB = false from rfl)
        (show (Value.num 7).isArrB = false from rfl)]
  exact ⟨hne, hfail,
    set_fail_unchanged '.' (.bool true) _ (("a.b.c").data) hne hfail⟩

/-- C4 (counterexample) — after a successful append through the negative
terminal index `-1`, reading the same path back yields `Null`, not the
value just stored: `GetByPath` rejects negative indices. -/
theorem set_get_negative_append :
    (jvSet '.' (.bool true) (.obj [(("a").data, .arr [])]) ("a.-1").data).2
        = true ∧
      GetByPath
        (jvSet '.' (.bool true) (.obj [(("a").data, .arr [])]) ("a.-1").data).1
        ("a.-1").data '.' = .null ∧
      Value.null ≠ .bool true := by
  have hset : jvSet '.' (.bool true) (.obj [(("a").data, .arr [])]) ("a.-1").data
      = (.obj [(("a").data, .arr [.bool true])], true) := by
    rw [jvSet_obj_mid_old
        (rfl : nextTok '.' ("a.-1").data = some (("a").data, ("-1").data))
        (by decide) (by decide)
        (rfl : objLookup ("a").data [(("a").data, .arr [])] = some (.arr []))
        (by simp),
      jvSet_arr_last_neg (rfl : nextTok '.' ("-1").data = some (("-1").data, []))
        (by decide) (rfl : goAtoi ("-1").data = some (-1)) (by decide)]
    rfl
  refine ⟨by rw [hset], ?_, by simp⟩
  rw [hset]
  show GetByPath (.obj [(("a").data, .arr [.bool true])]) ("a.-1").data '.' = .null
  unfold GetByPath
  rw [if_neg (by decide),
    getLoop_obj_hit
      (rfl : nextTok '.' ("a.-1").data = some (("a").data, ("-1").data))
      (by decide)
      (rfl : objLookup ("a").data [(("a").data, .arr [.bool true])]
        = some (.arr [.bool true])),
    getLoop_arr_out (rfl : nextTok '.' ("-1").data = some (("-1").data, []))
      (by decide) (rfl : goAtoi ("-1").data = some (-1)) (Or.inl (by decide))]

/-- After a successful `set`, reading the same path back with the same
tokenizer yields the stored value, provided no token of the path parses
as a negative integer. -/
theorem jvSet_getLoop (delim : Char) (v : Value) (s : List Char) :
    ∀ root : Value,
      (∀ tok ∈ pathToks delim s, ∀ i : Int, goAtoi tok = some i → 0 ≤ i) →
      (jvSet delim v root s).2 = true →
      getLoop delim (jvSet delim v root s).1 s = v := by
  intro root hnn hok
  cases hstep : nextTok delim s with
  | none => rw [jvSet_stop hstep] at hok; cases hok
  | some pr =>
    obtain ⟨tok, rest⟩ := pr
    have htoks := pathToks_cons hstep
    by_cases ht : tok = []
    · subst ht
      rw [jvSet_emptyTok hstep] at hok
      cases hok
    · have hnnrest : ∀ t ∈ pathToks delim rest, ∀ i : Int, goAtoi t = some i → 0 ≤ i :=
        fun t hmem => hnn t (by rw [htoks]; exact List.mem_cons_of_mem _ hmem)
      have hnnhead : ∀ i : Int, goAtoi tok = some i → 0 ≤ i :=
        hnn tok (by rw [htoks]; exact List.mem_cons_self _ _)
      cases root with
      | obj fields =>
        by_cases hr : rest = []
        · subst hr
          rw [jvSet_obj_last hstep ht]
          rw [getLoop_obj_hit hstep ht (objLookup_insert tok v fields),
            getLoop_stop (rfl : nextTok delim [] = none)]
        · rcases hlook : objLookup tok fields with _ | child
          · rw [jvSet_obj_mid_new hstep ht hr (Or.inl hlook)] at hok ⊢
            simp only at hok ⊢
            rw [getLoop_obj_hit hstep ht (objLookup_insert tok _ _)]
            exact jvSet_getLoop delim v rest (.obj []) hnnrest hok
          · by_cases hc : child = .null
            · subst hc
              rw [jvSet_obj_mid_new hstep ht hr (Or.inr hlook)] at hok ⊢
              simp only at hok ⊢
              rw [getLoop_obj_hit hstep ht (objLookup_insert tok _ _)]
              exact jvSet_getLoop delim v rest (.obj []) hnnrest hok
            · rw [jvSet_obj_mid_old hstep ht hr hlook hc] at hok ⊢
              simp only at hok ⊢
              rw [getLoop_obj_hit hstep ht (objLookup_insert tok _ _)]
              exact jvSet_getLoop delim v rest child hnnrest hok
      | arr elems =>
        rcases ha : goAtoi tok with _ | id
        · rw [jvSet_arr_badTok hstep ht ha] at hok
          cases hok
        · have hid0 : 0 ≤ id := hnnhead id ha
          by_cases hr : rest = []
          · subst hr
            rw [jvSet_arr_last_nonneg hstep ht ha hid0]
            have hlen : ((growLoop elems id.toNat).set id.toNat v).length
                = max (elems.length + 1) (id.toNat + 1) := by
              rw [List.length_set, growLoop_length]
            have hidlt : (id : Int) <
                (((growLoop elems id.toNat).set id.toNat v).length : Int) := by
              rw [hlen]
              have h2 : (id.toNat : Int) = id := Int.toNat_of_nonneg hid0
              omega
            rw [getLoop_arr_in hstep ht ha hid0 hidlt,
              getD_set_self _ _ _ (by rw [growLoop_length]; omega),
              getLoop_stop (rfl : nextTok delim [] = none)]
          · by_cases hb : id < 0 ∨ (elems.length : Int) ≤ id
            · rw [jvSet_arr_mid_oob hstep ht hr ha hb] at hok
              cases hok
            · push_neg at hb
              rw [jvSet_arr_mid_in hstep ht hr ha hb.1 hb.2] at hok ⊢
              simp only at hok ⊢
              have hlt2 : (id : Int) <
                  ((elems.set id.toNat
                    (jvSet delim v (elems.getD id.toNat .null) rest).1).length : Int) := by
                rw [List.length_set]
                exact hb.2
              rw [getLoop_arr_in hstep ht ha hb.1 hlt2,
                getD_set_self _ _ _ (by
                  have h2 : (id.toNat : Int) = id := Int.toNat_of_nonneg hb.1
                  have := hb.2
                  omega)]
              exact jvSet_getLoop delim v rest (elems.getD id.toNat .null) hnnrest hok
      | null =>
        rw [jvSet_scalar hstep ht (show (Value.null).isObjB = false from rfl)
          (show (Value.null).isArrB = false from rfl)] at hok
        cases hok
      | bool b =>
        rw [jvSet_scalar hstep ht (show (Value.bool b).isObjB = false from rfl)
          (show (Value.bool b).isArrB = false from rfl)] at hok
        cases hok
      | num n =>
        rw [jvSet_scalar hstep ht (show (Value.num n).isObjB = false from rfl)
          (show (Value.num n).isArrB = false from rfl)] at hok
        cases hok
      | str cs =>
        rw [jvSet_scalar hstep ht (show (Value.str cs).isObjB = false from rfl)
          (show (Value.str cs).isArrB = false from rfl)] at hok
        cases hok
termination_by s.length
decreasing_by all_goals exact nextTok_rest_lt hstep

/-- C4 (amended) — for every root, value and path none of whose tokens
parses as a negative integer: when `set` succeeds, `get` on the
resulting tree with the same path and delimiter returns the stored
value.  (With a negative terminal array index the append succeeds but
`get` returns `Null`; see the counterexample.) -/
theorem set_then_get (delim : Char) (v root : Value) (s : List Char)
    (hnn : ∀ tok ∈ pathToks delim s, ∀ i : Int, goAtoi tok = some i → 0 ≤ i)
    (hok : (jvSet delim v root s).2 = true) :
    GetByPath (jvSet delim v root s).1 s delim = v := by
  have hs : s ≠ [] := by
    intro he
    subst he
    rw [jvSet_stop (rfl : nextTok delim [] = none)] at hok
    cases hok
  unfold GetByPath
  rw [if_neg hs]
  exact jvSet_getLoop delim v s root hnn hok

/-- Witness for `set_then_get` at the numeric-token path `7` on an empty
object. -/
theorem set_then_get_witness :
    (∀ tok ∈ pathToks '.' ("7").data, ∀ i : Int, goAtoi tok = some i → 0 ≤ i) ∧
      (jvSet '.' (.num 5) (.obj []) ("7").data).2 = true ∧
      GetByPath (jvSet '.' (.num 5) (.obj []) ("7").data).1 ("7").data '.'
        = .num 5 := by
  have htoks : pathToks '.' ("7").data = [("7").data] := by
    rw [pathToks_cons (rfl : nextTok '.' ("7").data = some (("7").data, [])),
      pathToks_stop (rfl : nextTok '.' ([] : List Char) = none)]
    decide
  have hnn : ∀ tok ∈ pathToks '.' ("7").data, ∀ i : Int, goAtoi tok = some i → 0 ≤ i := by
    intro tok hmem i hi
    rw [htoks] at hmem
    simp only [List.mem_singleton] at hmem
    subst hmem
    rw [show goAtoi ("7").data = some 7 from rfl] at hi
    cases hi
    decide
  have hok : (jvSet '.' (.num 5) (.obj []) ("7").data).2 = true := by
    rw [jvSet_obj_last (rfl : nextTok '.' ("7").data = some (("7").data, []))
      (by decide)]
  exact ⟨hnn, hok, set_then_get '.' (.num 5) (.obj []) (("7").data) hnn hok⟩

/-! ### The lexicographic string order -/

theorem lexLt_asymm : ∀ (a b : List Char), lexLt a b = true → lexLt b a = false
  | [], [], h => by simp [lexLt] at h
  | [], _ :: _, _ => by simp [lexLt]
  | _ :: _, [], h => by simp [lexLt] at h
  | a :: as, b :: bs, h => by
    simp only [lexLt] at h ⊢
    by_cases h1 : a < b
    · rw [if_neg (lt_asymm h1), if_pos h1]
    · by_cases h2 : b < a
      · rw [if_neg h1, if_pos h2] at h
        cases h
      · rw [if_neg h1, if_neg h2] at h
        rw [if_neg h2, if_neg h1]
        exact lexLt_asymm as bs h

theorem lexLt_trans :
    ∀ (a b c : List Char), lexLt a b = true → lexLt b c = true → lexLt a c = true
  | [], [], _, h1, _ => by simp [lexLt] at h1
  | [], _ :: _, [], _, h2 => by simp [lexLt] at h2
  | [], _ :: _, _ :: _, _, _ => by simp [lexLt]
  | _ :: _, [], _, h1, _ => by simp [lexLt] at h1
  | _ :: _, _ :: _, [], _, h2 => by simp [lexLt] at h2
  | a :: as, b :: bs, c :: cs, h1, h2 => by
    simp only [lexLt] at h1 h2 ⊢
    by_cases hab : a < b
    · by_cases hbc : b < c
      · rw [if_pos (lt_trans hab hbc)]
      · by_cases hcb : c < b
        · rw [if_neg hbc, if_pos hcb] at h2
          cases h2
        · have hbceq : b = c := le_antisymm (le_of_not_lt hcb) (le_of_not_lt hbc)
          subst hbceq
          rw [if_pos hab]
    · by_cases hba : b < a
      · rw [if_neg hab, if_pos hba] at h1
        cases h1
      · have habeq : a = b := le_antisymm (le_of_not_lt hba) (le_of_not_lt hab)
        subst habeq
        rw [if_neg hab, if_neg hba] at h1
        by_cases hbc : a < c
        · rw [if_pos hbc]
        · by_cases hcb : c < a
          · rw [if_neg hbc, if_pos hcb] at h2
            cases h2
          · rw [if_neg hbc, if_neg hcb] at h2 ⊢
            exact lexLt_trans as bs cs h1 h2

theorem lexLt_conn :
    ∀ (a b : List Char), lexLt a b = false → lexLt b a = false → a = b
  | [], [], _, _ => rfl
  | [], _ :: _, h1, _ => by simp [lexLt] at h1
  | _ :: _, [], _, h2 => by simp [lexLt] at h2
  | a :: as, b :: bs, h1, h2 => by
    simp only [lexLt] at h1 h2
    by_cases hab : a < b
    · rw [if_pos hab] at h1
      cases h1
    · by_cases hba : b < a
      · rw [if_pos hba] at h2
        cases h2
      · have habeq : a = b := le_antisymm (le_of_not_lt hba) (le_of_not_lt hab)
        subst habeq
        rw [if_neg hab, if_neg hab] at h1 h2
        rw [lexLt_conn as bs h1 h2]

/-! ### The stable sort of `normalizeValue` as `List.insertionSort` -/

/-- The order `sort.SliceStable` sorts by: not strictly greater by
canonical string. -/
def canonLe (a b : Value) : Prop :=
  lexLt (canonicalString b) (canonicalString a) = false

instance : DecidableRel canonLe := fun a b => by
  unfold canonLe
  infer_instance

instance : IsTotal Value canonLe := by
  constructor
  intro a b
  by_cases h : lexLt (canonicalString b) (canonicalString a) = true
  · exact Or.inr (lexLt_asymm _ _ h)
  · exact Or.inl (by simpa [canonLe] using h)

instance : IsTrans Value canonLe := by
  constructor
  intro a b c hab hbc
  unfold canonLe at hab hbc ⊢
  by_cases hca : lexLt (canonicalString c) (canonicalString a) = true
  · exfalso
    by_cases hbc2 : lexLt (canonicalString b) (canonicalString c) = true
    · exact absurd (lexLt_trans _ _ _ hbc2 hca) (by simp [hab])
    · have heq : canonicalString b = canonicalString c :=
        lexLt_conn _ _ (by simpa using hbc2) hbc
      rw [← heq] at hca
      cases (hab.symm.trans hca)
  · simpa using hca

theorem insCanon_eq_orderedInsert (x : Value) :
    ∀ l, insCanon x l = List.orderedInsert canonLe x l := by
  intro l
  induction l with
  | nil => rfl
  | cons y ys ih =>
    by_cases h : lexLt (canonicalString y) (canonicalString x) = true
    · have : ¬ canonLe x y := by simp [canonLe, h]
      simp only [insCanon, List.orderedInsert, if_pos h, if_neg this, ih]
    · have h2 : canonLe x y := by simpa [canonLe] using h
      simp only [insCanon, List.orderedInsert, if_neg h, if_pos h2]

theorem sortCanon_eq_insertionSort :
    ∀ l, sortCanon l = List.insertionSort canonLe l := by
  intro l
  induction l with
  | nil => rfl
  | cons x xs ih => simp only [sortCanon, List.insertionSort, ih,
      insCanon_eq_orderedInsert]

theorem sortCanon_sorted (l : List Value) : List.Sorted canonLe (sortCanon l) := by
  rw [sortCanon_eq_insertionSort]
  exact List.sorted_insertionSort canonLe l

theorem sortCanon_perm (l : List Value) : List.Perm (sortCanon l) l := by
  rw [sortCanon_eq_insertionSort]
  exact List.perm_insertionSort canonLe l

theorem sortCanon_of_sorted {l : List Value} (h : List.Sorted canonLe l) :
    sortCanon l = l := by
  rw [sortCanon_eq_insertionSort]
  exact h.insertionSort_eq

/-! ### Normalization facts -/

theorem normElems_eq_map : ∀ l, normElems l = l.map normalizeValue := by
  intro l
  induction l with
  | nil => rfl
  | cons e es ih => simp [normElems, ih]

theorem normFields_eq_map :
    ∀ l, normFields l = l.map fun p => (p.1, normalizeValue p.2) := by
  intro l
  induction l with
  | nil => rfl
  | cons p r ih =>
    obtain ⟨k, v⟩ := p
    simp [normFields, ih]

theorem normElems_eq_self {l : List Value}
    (h : ∀ x ∈ l, normalizeValue x = x) : normElems l = l := by
  induction l with
  | nil => rfl
  | cons e es ih =>
    simp only [normElems]
    rw [h e (List.mem_cons_self _ _), ih fun x hx => h x (List.mem_cons_of_mem _ hx)]

theorem norm_idem_aux : ∀ (n : Nat) (v : Value), sizeOf v ≤ n →
    normalizeValue (normalizeValue v) = normalizeValue v := by
  intro n
  induction n with
  | zero =>
    intro v h
    cases v <;> simp_all
  | succ n ih =>
    intro v hle
    cases v with
    | null => simp [normalizeValue]
    | bool b => simp [normalizeValue]
    | num i => simp [normalizeValue]
    | str s => simp [normalizeValue]
    | obj fs =>
      have hfield : ∀ p ∈ fs, normalizeValue (normalizeValue p.2) = normalizeValue p.2 := by
        intro p hp
        have hsz : sizeOf p.2 ≤ n := by
          have h1 := List.sizeOf_lt_of_mem hp
          obtain ⟨k, w⟩ := p
          simp only [Value.obj.sizeOf_spec] at hle
          simp only [Prod.mk.sizeOf_spec] at h1
          show sizeOf w ≤ n
          omega
        exact ih p.2 hsz
      simp only [normalizeValue, normFields_eq_map]
      congr 1
      rw [List.map_map]
      apply List.map_congr_left
      intro p hp
      simp [hfield p hp]
    | arr es =>
      have helem : ∀ x ∈ es, normalizeValue (normalizeValue x) = normalizeValue x := by
        intro x hx
        have hsz : sizeOf x ≤ n := by
          have h1 := List.sizeOf_lt_of_mem hx
          simp only [Value.arr.sizeOf_spec] at hle
          omega
        exact ih x hsz
      simp only [normalizeValue]
      congr 1
      have hmem : ∀ y ∈ sortCanon (normElems es), normalizeValue y = y := by
        intro y hy
        have hy2 : y ∈ normElems es := (sortCanon_perm _).mem_iff.mp hy
        rw [normElems_eq_map] at hy2
        obtain ⟨x, hx, rfl⟩ := List.mem_map.mp hy2
        exact helem x hx
      rw [normElems_eq_self hmem, sortCanon_of_sorted (sortCanon_sorted _)]

/-- C9 — `normalize` is idempotent: normalizing twice gives the same
tree as normalizing once (objects renormalize their values pointwise;
an array of already-normalized elements re-sorts a sorted list, which
the stable insertion order leaves unchanged). -/
theorem normalizeValue_idem (v : Value) :
    normalizeValue (normalizeValue v) = normalizeValue v :=
  norm_idem_aux (sizeOf v) v le_rfl

/-! ### Well-formedness and structural-equality toolkit -/

theorem wfElems_iff {l : List Value} :
    wfElems l = true ↔ ∀ x ∈ l, wfValue x = true := by
  induction l with
  | nil => simp [wfElems]
  | cons e es ih => simp [wfElems, ih]

theorem wfFields_values {l : List (List Char × Value)} (h : wfFields l = true) :
    ∀ p ∈ l, wfValue p.2 = true := by
  induction l with
  | nil => simp
  | cons p r ih =>
    obtain ⟨k, v⟩ := p
    simp only [wfFields, Bool.and_eq_true] at h
    intro q hq
    rcases List.mem_cons.mp hq with rfl | hq2
    · exact h.1.2
    · exact ih h.2 q hq2

theorem keysFresh_not_mem {k : List Char} {l : List (List Char × Value)}
    (h : keysFresh k l = true) : k ∉ l.map Prod.fst := by
  induction l with
  | nil => simp
  | cons p r ih =>
    obtain ⟨k2, w⟩ := p
    simp only [keysFresh, Bool.and_eq_true, decide_eq_true_eq] at h
    simp only [List.map_cons, List.mem_cons]
    rintro (rfl | hmem)
    · exact h.1 rfl
    · exact ih h.2 hmem

theorem wfFields_keysNodup {l : List (List Char × Value)} (h : wfFields l = true) :
    (l.map Prod.fst).Nodup := by
  induction l with
  | nil => simp
  | cons p r ih =>
    obtain ⟨k, v⟩ := p
    simp only [wfFields, Bool.and_eq_true] at h
    simp only [List.map_cons, List.nodup_cons]
    exact ⟨keysFresh_not_mem h.1.1, ih h.2⟩

theorem keysFresh_normFields {k : List Char} :
    ∀ l, keysFresh k (normFields l) = keysFresh k l := by
  intro l
  induction l with
  | nil => rfl
  | cons p r ih =>
    obtain ⟨k2, v⟩ := p
    simp [normFields, keysFresh, ih]

/-- Normalization preserves well-formedness (object keys are untouched). -/
theorem wf_norm_aux : ∀ (n : Nat) (v : Value), sizeOf v ≤ n →
    wfValue v = true → wfValue (normalizeValue v) = true := by
  intro n
  induction n with
  | zero => intro v h; cases v <;> simp_all
  | succ n ih =>
    intro v hle hwf
    cases v with
    | null => simpa using hwf
    | bool b => simpa using hwf
    | num i => simpa using hwf
    | str s => simpa using hwf
    | arr es =>
      simp only [normalizeValue, wfValue] at hwf ⊢
      rw [wfElems_iff] at hwf ⊢
      intro x hx
      have hx2 : x ∈ normElems es := (sortCanon_perm _).mem_iff.mp hx
      rw [normElems_eq_map] at hx2
      obtain ⟨y, hy, rfl⟩ := List.mem_map.mp hx2
      have hsz : sizeOf y ≤ n := by
        have h1 := List.sizeOf_lt_of_mem hy
        simp only [Value.arr.sizeOf_spec] at hle
        omega
      exact ih y hsz (hwf y hy)
    | obj fs =>
      simp only [normalizeValue, wfValue] at hwf ⊢
      induction fs with
      | nil => simp [normFields, wfFields]
      | cons p r ihr =>
        obtain ⟨k, w⟩ := p
        simp only [wfFields, Bool.and_eq_true] at hwf
        have hsz : sizeOf w ≤ n := by
          simp only [Value.obj.sizeOf_spec, List.cons.sizeOf_spec,
            Prod.mk.sizeOf_spec] at hle
          omega
        have hr : wfFields (normFields r) = true := by
          apply ihr
          · simp only [Value.obj.sizeOf_spec, List.cons.sizeOf_spec,
              Prod.mk.sizeOf_spec] at hle ⊢
            omega
          · exact hwf.2
        simp only [normFields, wfFields, Bool.and_eq_true]
        exact ⟨⟨by rw [keysFresh_normFields]; exact hwf.1.1, ih w hsz hwf.1.2⟩, hr⟩

theorem wf_norm {v : Value} (h : wfValue v = true) :
    wfValue (normalizeValue v) = true :=
  wf_norm_aux (sizeOf v) v le_rfl h

theorem deepEqualAt_iff {k : List Char} {v : Value} :
    ∀ {l}, deepEqualAt k v l = true ↔
      ∃ w, objLookup k l = some w ∧ deepEqual v w = true := by
  intro l
  induction l with
  | nil => simp [deepEqualAt, objLookup]
  | cons p r ih =>
    obtain ⟨k2, w⟩ := p
    by_cases h : k = k2
    · subst h
      simp [deepEqualAt, objLookup]
    · simp only [deepEqualAt, objLookup, if_neg h]
      exact ih

theorem deepEqualFields_iff {gs : List (List Char × Value)} :
    ∀ {fs}, deepEqualFields fs gs = true ↔
      ∀ p ∈ fs, deepEqualAt p.1 p.2 gs = true := by
  intro fs
  induction fs with
  | nil => simp [deepEqualFields]
  | cons p r ih =>
    obtain ⟨k, v⟩ := p
    simp only [deepEqualFields, Bool.and_eq_true, ih, List.mem_cons]
    constructor
    · rintro ⟨h1, h2⟩ q (rfl | hq)
      · exact h1
      · exact h2 q hq
    · intro h
      exact ⟨h (k, v) (Or.inl rfl), fun q hq => h q (Or.inr hq)⟩

theorem deepEqual_arr_iff {as bs : List Value} :
    deepEqual (.arr as) (.arr bs) = true ↔
      List.Forall₂ (fun x y => deepEqual x y = true) as bs := by
  have : ∀ (as bs : List Value), (as.length = bs.length ∧
      deepEqualElems as bs = true) ↔
      List.Forall₂ (fun x y => deepEqual x y = true) as bs := by
    intro as
    induction as with
    | nil =>
      intro bs
      cases bs <;> simp [deepEqualElems]
    | cons a ar ih =>
      intro bs
      cases bs with
      | nil => simp [deepEqualElems]
      | cons b br =>
        simp only [deepEqualElems, Bool.and_eq_true, List.forall₂_cons,
          List.length_cons, Nat.succ_inj]
        rw [← ih br]
        constructor
        · rintro ⟨h1, h2, h3⟩; exact ⟨h2, h1, h3⟩
        · rintro ⟨h2, h1, h3⟩; exact ⟨h1, h2, h3⟩

  rw [← this as bs]
  simp only [deepEqual, Bool.and_eq_true, beq_iff_eq]

theorem deepEqual_obj_iff {fs gs : List (List Char × Value)} :
    deepEqual (.obj fs) (.obj gs) = true ↔
      fs.length = gs.length ∧ deepEqualFields fs gs = true := by
  simp [deepEqual]

theorem objLookup_mem {k : List Char} {w : Value} :
    ∀ {l}, objLookup k l = some w → (k, w) ∈ l := by
  intro l
  induction l with
  | nil => intro h; simp [objLookup] at h
  | cons p r ih =>
    obtain ⟨k2, w2⟩ := p
    by_cases h : k = k2
    · subst h
      intro h2
      have h3 : some w2 = some w := by simpa [objLookup] using h2
      cases h3
      exact List.mem_cons_self _ _
    · simp only [objLookup, if_neg h]
      intro h2
      exact List.mem_cons_of_mem _ (ih h2)

theorem objLookup_of_mem_nodup {k : List Char} {w : Value} :
    ∀ {l}, (k, w) ∈ l → (l.map Prod.fst).Nodup → objLookup k l = some w := by
  intro l
  induction l with
  | nil => simp
  | cons p r ih =>
    obtain ⟨k2, w2⟩ := p
    intro hmem hnd
    simp only [List.map_cons, List.nodup_cons] at hnd
    rcases List.mem_cons.mp hmem with heq | hmem2
    · cases heq
      simp [objLookup]
    · have hk : k ≠ k2 := by
        rintro rfl
        exact hnd.1 (List.mem_map.mpr ⟨(k, w), hmem2, rfl⟩)
      simp only [objLookup, if_neg hk]
      exact ih hmem2 hnd.2

/-! ### Key-sorting of object fields at the value level

`canonicalString` sorts the rendered fields by raw key; sorting the
fields before rendering gives the same result, which lets the
injectivity proofs connect the rendered text back to member values. -/

def insFieldV (p : List Char × Value) :
    List (List Char × Value) → List (List Char × Value)
  | [] => [p]
  | q :: r => if lexLt q.1 p.1 then q :: insFieldV p r else p :: q :: r

def sortFieldsV : List (List Char × Value) → List (List Char × Value)
  | [] => []
  | p :: r => insFieldV p (sortFieldsV r)

/-- Key order on rendered or unrendered fields. -/
def fvLe (p q : List Char × Value) : Prop := lexLt q.1 p.1 = false

instance : DecidableRel fvLe := fun p q => by
  unfold fvLe
  infer_instance

instance : IsTotal (List Char × Value) fvLe := by
  constructor
  intro a b
  by_cases h : lexLt b.1 a.1 = true
  · exact Or.inr (lexLt_asymm _ _ h)
  · exact Or.inl (by simpa [fvLe] using h)

instance : IsTrans (List Char × Value) fvLe := by
  constructor
  intro a b c hab hbc
  unfold fvLe at hab hbc ⊢
  by_cases hca : lexLt c.1 a.1 = true
  · exfalso
    by_cases hbc2 : lexLt b.1 c.1 = true
    · exact absurd (lexLt_trans _ _ _ hbc2 hca) (by simp [hab])
    · have heq : b.1 = c.1 := lexLt_conn _ _ (by simpa using hbc2) hbc
      rw [← heq] at hca
      cases (hab.symm.trans hca)
  · simpa using hca

theorem insFieldV_eq_orderedInsert (p : List Char × Value) :
    ∀ l, insFieldV p l = List.orderedInsert fvLe p l := by
  intro l
  induction l with
  | nil => rfl
  | cons q r ih =>
    by_cases h : lexLt q.1 p.1 = true
    · have h2 : ¬ fvLe p q := by simp [fvLe, h]
      simp only [insFieldV, List.orderedInsert, if_pos h, if_neg h2, ih]
    · have h2 : fvLe p q := by simpa [fvLe] using h
      simp only [insFieldV, List.orderedInsert, if_neg h, if_pos h2]

theorem sortFieldsV_eq_insertionSort :
    ∀ l, sortFieldsV l = List.insertionSort fvLe l := by
  intro l
  induction l with
  | nil => rfl
  | cons p r ih => simp only [sortFieldsV, List.insertionSort, ih,
      insFieldV_eq_orderedInsert]

theorem sortFieldsV_sorted (l : List (List Char × Value)) :
    List.Sorted fvLe (sortFieldsV l) := by
  rw [sortFieldsV_eq_insertionSort]
  exact List.sorted_insertionSort fvLe l

theorem sortFieldsV_perm (l : List (List Char × Value)) :
    List.Perm (sortFieldsV l) l := by
  rw [sortFieldsV_eq_insertionSort]
  exact List.perm_insertionSort fvLe l

theorem canonPairs_eq_map :
    ∀ l, canonPairs l = l.map fun p => (p.1, canonicalString p.2) := by
  intro l
  induction l with
  | nil => rfl
  | cons p r ih =>
    obtain ⟨k, v⟩ := p
    simp [canonPairs, ih]

theorem canonPairs_insFieldV (p : List Char × Value) :
    ∀ l, canonPairs (insFieldV p l) =
      insFieldStr (p.1, canonicalString p.2) (canonPairs l) := by
  intro l
  induction l with
  | nil =>
    obtain ⟨k, v⟩ := p
    rfl
  | cons q r ih =>
    obtain ⟨k, v⟩ := p
    obtain ⟨k2, w⟩ := q
    by_cases h : lexLt k2 k = true
    · simp only [insFieldV, if_pos h, canonPairs, ih, insFieldStr]
    · simp only [insFieldV, canonPairs, insFieldStr]
      rw [if_neg h, if_neg h]
      rfl

theorem canonPairs_sortFieldsV :
    ∀ l, canonPairs (sortFieldsV l) = sortFieldStrs (canonPairs l) := by
  intro l
  induction l with
  | nil => rfl
  | cons p r ih =>
    obtain ⟨k, v⟩ := p
    simp only [sortFieldsV, canonPairs, sortFieldStrs, canonPairs_insFieldV, ih]

/-- The canonical rendering of an object is the rendering of its fields
sorted by key at the value level. -/
theorem canon_obj_eq (fs : List (List Char × Value)) :
    canonicalString (.obj fs) =
      '{' :: (joinFieldStrs (canonPairs (sortFieldsV fs)) ++ ['}']) := by
  rw [canonPairs_sortFieldsV]
  rfl

/-- Two key-sorted field lists with duplicate-free keys that are
permutations of each other are equal. -/
theorem sortedFields_perm_eq :
    ∀ (l1 l2 : List (List Char × Value)), List.Sorted fvLe l1 →
      List.Sorted fvLe l2 → (l1.map Prod.fst).Nodup → List.Perm l1 l2 →
      l1 = l2 := by
  intro l1
  induction l1 with
  | nil =>
    intro l2 _ _ _ hperm
    exact (List.Perm.eq_nil hperm.symm).symm
  | cons p r ih =>
    intro l2 hs1 hs2 hnd hperm
    cases l2 with
    | nil => exact absurd hperm.symm (by simp)
    | cons q s =>
      by_cases hpq : p = q
      · subst hpq
        have := ih s hs1.tail hs2.tail (by
          simp only [List.map_cons, List.nodup_cons] at hnd
          exact hnd.2) (hperm.cons_inv)
        rw [this]
      · exfalso
        have hpmem : p ∈ q :: s := hperm.mem_iff.mp (List.mem_cons_self _ _)
        have hps : p ∈ s := by
          rcases List.mem_cons.mp hpmem with heq | h2
          · exact absurd heq hpq
          · exact h2
        have hqmem : q ∈ p :: r := hperm.symm.mem_iff.mp (List.mem_cons_self _ _)
        have hqr : q ∈ r := by
          rcases List.mem_cons.mp hqmem with heq | h2
          · exact absurd heq.symm hpq
          · exact h2
        have h1 : fvLe p q := List.rel_of_sorted_cons hs1 q hqr
        have h2 : fvLe q p := List.rel_of_sorted_cons hs2 p hps
        have hk : p.1 = q.1 := lexLt_conn _ _ h2 h1
        simp only [List.map_cons, List.nodup_cons] at hnd
        exact hnd.1 (List.mem_map.mpr ⟨q, hqr, hk.symm⟩)

/-! ### The rendered-field sort as `List.insertionSort` -/

/-- Key order on rendered fields. -/
def psLe (p q : List Char × List Char) : Prop := lexLt q.1 p.1 = false

instance : DecidableRel psLe := fun p q => by
  unfold psLe
  infer_instance

instance : IsTotal (List Char × List Char) psLe := by
  constructor
  intro a b
  by_cases h : lexLt b.1 a.1 = true
  · exact Or.inr (lexLt_asymm _ _ h)
  · exact Or.inl (by simpa [psLe] using h)

instance : IsTrans (List Char × List Char) psLe := by
  constructor
  intro a b c hab hbc
  unfold psLe at hab hbc ⊢
  by_cases hca : lexLt c.1 a.1 = true
  · exfalso
    by_cases hbc2 : lexLt b.1 c.1 = true
    · exact absurd (lexLt_trans _ _ _ hbc2 hca) (by simp [hab])
    · have heq : b.1 = c.1 := lexLt_conn _ _ (by simpa using hbc2) hbc
      rw [← heq] at hca
      cases (hab.symm.trans hca)
  · simpa using hca

theorem insFieldStr_eq_orderedInsert (p : List Char × List Char) :
    ∀ l, insFieldStr p l = List.orderedInsert psLe p l := by
  intro l
  induction l with
  | nil => rfl
  | cons q r ih =>
    by_cases h : lexLt q.1 p.1 = true
    · have h2 : ¬ psLe p q := by simp [psLe, h]
      simp only [insFieldStr, List.orderedInsert, if_pos h, if_neg h2, ih]
    · have h2 : psLe p q := by simpa [psLe] using h
      simp only [insFieldStr, List.orderedInsert, if_neg h, if_pos h2]

theorem sortFieldStrs_eq_insertionSort :
    ∀ l, sortFieldStrs l = List.insertionSort psLe l := by
  intro l
  induction l with
  | nil => rfl
  | cons p r ih => simp only [sortFieldStrs, List.insertionSort, ih,
      insFieldStr_eq_orderedInsert]

theorem sortFieldStrs_sorted (l : List (List Char × List Char)) :
    List.Sorted psLe (sortFieldStrs l) := by
  rw [sortFieldStrs_eq_insertionSort]
  exact List.sorted_insertionSort psLe l

theorem sortFieldStrs_perm (l : List (List Char × List Char)) :
    List.Perm (sortFieldStrs l) l := by
  rw [sortFieldStrs_eq_insertionSort]
  exact List.perm_insertionSort psLe l

theorem sortedStrPairs_perm_eq :
    ∀ (l1 l2 : List (List Char × List Char)), List.Sorted psLe l1 →
      List.Sorted psLe l2 → (l1.map Prod.fst).Nodup → List.Perm l1 l2 →
      l1 = l2 := by
  intro l1
  induction l1 with
  | nil =>
    intro l2 _ _ _ hperm
    exact (List.Perm.eq_nil hperm.symm).symm
  | cons p r ih =>
    intro l2 hs1 hs2 hnd hperm
    cases l2 with
    | nil => exact absurd hperm.symm (by simp)
    | cons q s =>
      by_cases hpq : p = q
      · subst hpq
        have := ih s hs1.tail hs2.tail (by
          simp only [List.map_cons, List.nodup_cons] at hnd
          exact hnd.2) (hperm.cons_inv)
        rw [this]
      · exfalso
        have hpmem : p ∈ q :: s := hperm.mem_iff.mp (List.mem_cons_self _ _)
        have hps : p ∈ s := by
          rcases List.mem_cons.mp hpmem with heq | h2
          · exact absurd heq hpq
          · exact h2
        have hqmem : q ∈ p :: r := hperm.symm.mem_iff.mp (List.mem_cons_self _ _)
        have hqr : q ∈ r := by
          rcases List.mem_cons.mp hqmem with heq | h2
          · exact absurd heq.symm hpq
          · exact h2
        have h1 : psLe p q := List.rel_of_sorted_cons hs1 q hqr
        have h2 : psLe q p := List.rel_of_sorted_cons hs2 p hps
        have hk : p.1 = q.1 := lexLt_conn _ _ h2 h1
        simp only [List.map_cons, List.nodup_cons] at hnd
        exact hnd.1 (List.mem_map.mpr ⟨q, hqr, hk.symm⟩)

theorem canonPairs_keys :
    ∀ l : List (List Char × Value),
      (canonPairs l).map Prod.fst = l.map Prod.fst := by
  intro l
  rw [canonPairs_eq_map, List.map_map]
  rfl

/-! ### Canonical strings coincide on deep-equal well-formed values -/

theorem canon_eq_of_deepEqual_aux : ∀ (n : Nat) (x y : Value), sizeOf x ≤ n →
    wfValue x = true → wfValue y = true → deepEqual x y = true →
    canonicalString x = canonicalString y := by
  intro n
  induction n with
  | zero => intro x y h; cases x <;> simp_all
  | succ n ih =>
    intro x y hle hwx hwy hdeq
    cases x with
    | null => cases y <;> simp_all [deepEqual]
    | bool a =>
      cases y <;> simp_all [deepEqual]
    | num a =>
      cases y <;> simp_all [deepEqual]
    | str a =>
      cases y <;> simp_all [deepEqual]
    | arr as =>
      cases y with
      | arr bs =>
        have hf : List.Forall₂ (fun a b => deepEqual a b = true) as bs :=
          deepEqual_arr_iff.mp hdeq
        simp only [wfValue] at hwx hwy
        have hsz : ∀ a ∈ as, sizeOf a ≤ n := by
          intro a ha
          have h1 := List.sizeOf_lt_of_mem ha
          simp only [Value.arr.sizeOf_spec] at hle
          omega
        have main : ∀ (as2 bs2 : List Value), (∀ a ∈ as2, sizeOf a ≤ n) →
            wfElems as2 = true → wfElems bs2 = true →
            List.Forall₂ (fun a b => deepEqual a b = true) as2 bs2 →
            canonElems as2 = canonElems bs2 ∧
              canonElemsTail as2 = canonElemsTail bs2 := by
          intro as2
          induction as2 with
          | nil =>
            intro bs2 _ _ _ hf2
            cases hf2
            exact ⟨rfl, rfl⟩
          | cons a ar ihr =>
            intro bs2 hsz2 hw1 hw2 hf2
            cases hf2 with
            | cons hab htail =>
              rename_i b br
              simp only [wfElems, Bool.and_eq_true] at hw1 hw2
              have hcan : canonicalString a = canonicalString b :=
                ih a b (hsz2 a (List.mem_cons_self _ _)) hw1.1 hw2.1 hab
              have hrest := ihr br
                (fun q hq => hsz2 q (List.mem_cons_of_mem _ hq))
                hw1.2 hw2.2 htail
              constructor
              · simp only [canonElems, hcan, hrest.2]
              · simp only [canonElemsTail, hcan, hrest.2]
        have hmain := main as bs hsz hwx hwy hf
        simp only [canonicalString, hmain.1]
      | null => simp [deepEqual] at hdeq
      | bool b => simp [deepEqual] at hdeq
      | num b => simp [deepEqual] at hdeq
      | str b => simp [deepEqual] at hdeq
      | obj gs => simp [deepEqual] at hdeq
    | obj fs =>
      cases y with
      | obj gs =>
        obtain ⟨hlen, hflds⟩ := deepEqual_obj_iff.mp hdeq
        simp only [wfValue] at hwx hwy
        rw [canon_obj_eq, canon_obj_eq, canonPairs_sortFieldsV,
          canonPairs_sortFieldsV]
        have hkey : sortFieldStrs (canonPairs fs) = sortFieldStrs (canonPairs gs) := by
          apply sortedStrPairs_perm_eq _ _ (sortFieldStrs_sorted _)
            (sortFieldStrs_sorted _)
          · rw [(sortFieldStrs_perm (canonPairs fs)).map Prod.fst |>.nodup_iff]
            rw [canonPairs_keys]
            exact wfFields_keysNodup hwx
          · refine (sortFieldStrs_perm _).trans (List.Perm.trans ?_
              (sortFieldStrs_perm _).symm)
            have hsub : canonPairs fs ⊆ canonPairs gs := by
              intro pq hpq
              rw [canonPairs_eq_map] at hpq
              obtain ⟨⟨k, v⟩, hkv, rfl⟩ := List.mem_map.mp hpq
              have hat : deepEqualAt k v gs = true :=
                deepEqualFields_iff.mp hflds (k, v) hkv
              obtain ⟨w, hlook, hdvw⟩ := deepEqualAt_iff.mp hat
              have hsz : sizeOf v ≤ n := by
                have h1 := List.sizeOf_lt_of_mem hkv
                simp only [Value.obj.sizeOf_spec, Prod.mk.sizeOf_spec] at hle h1
                omega
              have hwv : wfValue v = true := wfFields_values hwx (k, v) hkv
              have hww : wfValue w = true :=
                wfFields_values hwy (k, w) (objLookup_mem hlook)
              have hcan : canonicalString v = canonicalString w :=
                ih v w hsz hwv hww hdvw
              rw [canonPairs_eq_map]
              refine List.mem_map.mpr ⟨(k, w), objLookup_mem hlook, ?_⟩
              simp [hcan]
            have hnd : (canonPairs fs).Nodup := by
              apply List.Nodup.of_map Prod.fst
              rw [canonPairs_keys]
              exact wfFields_keysNodup hwx
            have hsp := hnd.subperm hsub
            refine hsp.perm_of_length_le ?_
            rw [canonPairs_eq_map, canonPairs_eq_map]
            simp [hlen]
        rw [hkey]
      | null => simp [deepEqual] at hdeq
      | bool b => simp [deepEqual] at hdeq
      | num b => simp [deepEqual] at hdeq
      | str b => simp [deepEqual] at hdeq
      | arr bs => simp [deepEqual] at hdeq

theorem canon_eq_of_deepEqual {x y : Value} (hwx : wfValue x = true)
    (hwy : wfValue y = true) (h : deepEqual x y = true) :
    canonicalString x = canonicalString y :=
  canon_eq_of_deepEqual_aux (sizeOf x) x y le_rfl hwx hwy h

theorem normValue_null : normalizeValue .null = .null := by simp [normalizeValue]

theorem normValue_bool (b : Bool) : normalizeValue (.bool b) = .bool b := by
  simp [normalizeValue]

theorem normValue_num (i : Int) : normalizeValue (.num i) = .num i := by
  simp [normalizeValue]

theorem normValue_str (s : List Char) : normalizeValue (.str s) = .str s := by
  simp [normalizeValue]

theorem objLookup_normFields (k : List Char) :
    ∀ l, objLookup k (normFields l) = (objLookup k l).map normalizeValue := by
  intro l
  induction l with
  | nil => rfl
  | cons p r ih =>
    obtain ⟨k2, v⟩ := p
    by_cases h : k = k2
    · simp [normFields, objLookup, h]
    · simp [normFields, objLookup, h, ih]

/-- Pairs that are deep-equal with equal canonical strings. -/
def eqvCanon (p q : Value) : Prop :=
  deepEqual p q = true ∧ canonicalString p = canonicalString q

theorem insCanon_forall2 {x y : Value} (hxy : eqvCanon x y) :
    ∀ {l1 l2}, List.Forall₂ eqvCanon l1 l2 →
      List.Forall₂ eqvCanon (insCanon x l1) (insCanon y l2) := by
  intro l1 l2 hf
  induction hf with
  | nil => exact List.Forall₂.cons hxy List.Forall₂.nil
  | cons hab htail ih =>
    rename_i a b ar br
    by_cases h : lexLt (canonicalString a) (canonicalString x) = true
    · have h2 : lexLt (canonicalString b) (canonicalString y) = true := by
        rw [← hab.2, ← hxy.2]
        exact h
      simp only [insCanon, if_pos h, if_pos h2]
      exact List.Forall₂.cons hab ih
    · have h2 : ¬ lexLt (canonicalString b) (canonicalString y) = true := by
        rw [← hab.2, ← hxy.2]
        exact h
      simp only [insCanon, if_neg h, if_neg h2]
      exact List.Forall₂.cons hxy (List.Forall₂.cons hab htail)

theorem sortCanon_forall2 :
    ∀ {l1 l2}, List.Forall₂ eqvCanon l1 l2 →
      List.Forall₂ eqvCanon (sortCanon l1) (sortCanon l2) := by
  intro l1 l2 hf
  induction hf with
  | nil => exact List.Forall₂.nil
  | cons hab htail ih =>
    exact insCanon_forall2 hab ih

/-- Normalization respects deep equality on well-formed values. -/
theorem deepEqual_norm_aux : ∀ (n : Nat) (x y : Value), sizeOf x ≤ n →
    wfValue x = true → wfValue y = true → deepEqual x y = true →
    deepEqual (normalizeValue x) (normalizeValue y) = true := by
  intro n
  induction n with
  | zero => intro x y h; cases x <;> simp_all
  | succ n ih =>
    intro x y hle hwx hwy hdeq
    cases x with
    | null => cases y <;>
        simp_all [deepEqual, normValue_null, normValue_bool, normValue_num,
          normValue_str]
    | bool a => cases y <;>
        simp_all [deepEqual, normValue_null, normValue_bool, normValue_num,
          normValue_str]
    | num a => cases y <;>
        simp_all [deepEqual, normValue_null, normValue_bool, normValue_num,
          normValue_str]
    | str a => cases y <;>
        simp_all [deepEqual, normValue_null, normValue_bool, normValue_num,
          normValue_str]
    | arr as =>
      cases y with
      | arr bs =>
        have hf : List.Forall₂ (fun a b => deepEqual a b = true) as bs :=
          deepEqual_arr_iff.mp hdeq
        simp only [wfValue] at hwx hwy
        simp only [normalizeValue]
        rw [deepEqual_arr_iff]
        have hsz : ∀ a ∈ as, sizeOf a ≤ n := by
          intro a ha
          have h1 := List.sizeOf_lt_of_mem ha
          simp only [Value.arr.sizeOf_spec] at hle
          omega
        have hmain : ∀ (as2 bs2 : List Value), (∀ a ∈ as2, sizeOf a ≤ n) →
            wfElems as2 = true → wfElems bs2 = true →
            List.Forall₂ (fun a b => deepEqual a b = true) as2 bs2 →
            List.Forall₂ eqvCanon (normElems as2) (normElems bs2) := by
          intro as2
          induction as2 with
          | nil =>
            intro bs2 _ _ _ hf2
            cases hf2
            exact List.Forall₂.nil
          | cons a ar ihr =>
            intro bs2 hsz2 hw1 hw2 hf2
            cases hf2 with
            | cons hab htail =>
              rename_i b br
              simp only [wfElems, Bool.and_eq_true] at hw1 hw2
              have hd := ih a b (hsz2 a (List.mem_cons_self _ _)) hw1.1 hw2.1 hab
              simp only [normElems]
              exact List.Forall₂.cons
                ⟨hd, canon_eq_of_deepEqual (wf_norm hw1.1) (wf_norm hw2.1) hd⟩
                (ihr br (fun q hq => hsz2 q (List.mem_cons_of_mem _ hq))
                  hw1.2 hw2.2 htail)
        have hE : List.Forall₂ eqvCanon (normElems as) (normElems bs) :=
          hmain as bs hsz hwx hwy hf
        exact List.Forall₂.imp (fun a b h => h.1) (sortCanon_forall2 hE)
      | null => simp [deepEqual] at hdeq
      | bool b => simp [deepEqual] at hdeq
      | num b => simp [deepEqual] at hdeq
      | str b => simp [deepEqual] at hdeq
      | obj gs => simp [deepEqual] at hdeq
    | obj fs =>
      cases y with
      | obj gs =>
        obtain ⟨hlen, hflds⟩ := deepEqual_obj_iff.mp hdeq
        simp only [wfValue] at hwx hwy
        simp only [normalizeValue]
        rw [deepEqual_obj_iff]
        constructor
        · rw [normFields_eq_map, normFields_eq_map]
          simp [hlen]
        · rw [deepEqualFields_iff]
          intro p hp
          rw [normFields_eq_map] at hp
          obtain ⟨⟨k, v⟩, hkv, rfl⟩ := List.mem_map.mp hp
          have hat : deepEqualAt k v gs = true :=
            deepEqualFields_iff.mp hflds (k, v) hkv
          obtain ⟨w, hlook, hdvw⟩ := deepEqualAt_iff.mp hat
          rw [deepEqualAt_iff]
          refine ⟨normalizeValue w, ?_, ?_⟩
          · rw [objLookup_normFields, hlook]
            rfl
          · have hsz : sizeOf v ≤ n := by
              have h1 := List.sizeOf_lt_of_mem hkv
              simp only [Value.obj.sizeOf_spec, Prod.mk.sizeOf_spec] at hle h1
              omega
            exact ih v w hsz (wfFields_values hwx (k, v) hkv)
              (wfFields_values hwy (k, w) (objLookup_mem hlook)) hdvw
      | null => simp [deepEqual] at hdeq
      | bool b => simp [deepEqual] at hdeq
      | num b => simp [deepEqual] at hdeq
      | str b => simp [deepEqual] at hdeq
      | arr bs => simp [deepEqual] at hdeq

theorem deepEqual_norm {x y : Value} (hwx : wfValue x = true)
    (hwy : wfValue y = true) (h : deepEqual x y = true) :
    deepEqual (normalizeValue x) (normalizeValue y) = true :=
  deepEqual_norm_aux (sizeOf x) x y le_rfl hwx hwy h

/-! ### Decimal rendering: digits, injectivity, prefix cancellation -/

/-- The continuation after a rendered number never starts with a digit
(in canonical output it is a comma, a closing bracket or brace, or the
end), which makes the digit run maximal. -/
def noDigitHead : List Char → Prop
  | [] => True
  | c :: _ => isDigitCh c = false

theorem dchar_spec {k : Nat} (h : k < 10) :
    isDigitCh (Char.ofNat (('0').toNat + k)) = true ∧
      (Char.ofNat (('0').toNat + k)).toNat = ('0').toNat + k := by
  interval_cases k <;> decide

theorem natChars_unfold (n : Nat) : natChars n =
    if n < 10 then [Char.ofNat (('0').toNat + n)]
    else natChars (n / 10) ++ [Char.ofNat (('0').toNat + n % 10)] := by
  rw [natChars.eq_def]

theorem natChars_ne_nil (n : Nat) : natChars n ≠ [] := by
  rw [natChars_unfold]
  split
  · simp
  · simp

theorem natChars_digits (n : Nat) : (natChars n).all isDigitCh = true := by
  induction n using Nat.strong_induction_on with
  | _ n ih =>
    rw [natChars_unfold]
    split
    case _ h => simpa using (dchar_spec h).1
    case _ h =>
      rw [List.all_append]
      have h1 := ih (n / 10) (by omega)
      have h2 := (dchar_spec (Nat.mod_lt n (by omega) : n % 10 < 10)).1
      have h0 : ('0').toNat = 48 := rfl
      rw [h0] at h2
      simp [h1, h2]

theorem digitsVal_append_one (ds : List Char) (c : Char) :
    digitsVal (ds ++ [c]) = digitsVal ds * 10 + (c.toNat - ('0').toNat) := by
  simp [digitsVal, List.foldl_append]

theorem digitsVal_natChars (n : Nat) : digitsVal (natChars n) = n := by
  induction n using Nat.strong_induction_on with
  | _ n ih =>
    rw [natChars_unfold]
    split
    case _ h =>
      have h2 := (dchar_spec h).2
      have h0 : ('0').toNat = 48 := rfl
      rw [h0] at h2
      simp [digitsVal, h2]
    case _ h =>
      rw [digitsVal_append_one, ih (n / 10) (by omega),
        (dchar_spec (Nat.mod_lt n (by omega) : n % 10 < 10)).2]
      omega

theorem natChars_inj {m n : Nat} (h : natChars m = natChars n) : m = n := by
  have := digitsVal_natChars m
  rw [h, digitsVal_natChars] at this
  exact this.symm

theorem natChars_head (n : Nat) :
    ∃ c r, natChars n = c :: r ∧ isDigitCh c = true := by
  cases hc : natChars n with
  | nil => exact absurd hc (natChars_ne_nil n)
  | cons c r =>
    refine ⟨c, r, rfl, ?_⟩
    have := natChars_digits n
    rw [hc] at this
    simp only [List.all_cons, Bool.and_eq_true] at this
    exact this.1

theorem digits_cancel :
    ∀ (d1 d2 s t : List Char), d1.all isDigitCh = true →
      d2.all isDigitCh = true → noDigitHead s → noDigitHead t →
      d1 ++ s = d2 ++ t → d1 = d2 ∧ s = t := by
  intro d1
  induction d1 with
  | nil =>
    intro d2 s t _ hd2 hs ht heq
    cases d2 with
    | nil => exact ⟨rfl, heq⟩
    | cons c r =>
      exfalso
      simp only [List.nil_append, List.cons_append] at heq
      subst heq
      simp only [List.all_cons, Bool.and_eq_true] at hd2
      simp only [noDigitHead] at hs
      rw [hs] at hd2
      cases hd2.1
  | cons c r ih =>
    intro d2 s t hd1 hd2 hs ht heq
    cases d2 with
    | nil =>
      exfalso
      simp only [List.cons_append, List.nil_append] at heq
      subst heq
      simp only [List.all_cons, Bool.and_eq_true] at hd1
      simp only [noDigitHead] at ht
      rw [ht] at hd1
      cases hd1.1
    | cons c2 r2 =>
      simp only [List.cons_append, List.cons.injEq] at heq
      obtain ⟨rfl, heq2⟩ := heq
      simp only [List.all_cons, Bool.and_eq_true] at hd1 hd2
      obtain ⟨h1, h2⟩ := ih r2 s t hd1.2 hd2.2 hs ht heq2
      exact ⟨by rw [h1], h2⟩

theorem intChars_head (i : Int) :
    ∃ c r, intChars i = c :: r ∧ (c = '-' ∨ isDigitCh c = true) := by
  unfold intChars
  split
  · exact ⟨'-', _, rfl, Or.inl rfl⟩
  · obtain ⟨c, r, hc, hd⟩ := natChars_head i.natAbs
    exact ⟨c, r, hc, Or.inr hd⟩

theorem intChars_cancel {i j : Int} {s t : List Char}
    (hs : noDigitHead s) (ht : noDigitHead t)
    (heq : intChars i ++ s = intChars j ++ t) : i = j ∧ s = t := by
  unfold intChars at heq
  by_cases hi : i < 0
  · by_cases hj : j < 0
    · rw [if_pos hi, if_pos hj] at heq
      simp only [List.cons_append, List.cons.injEq, true_and] at heq
      obtain ⟨h1, h2⟩ := digits_cancel _ _ _ _ (natChars_digits _)
        (natChars_digits _) hs ht heq
      have := natChars_inj h1
      exact ⟨by omega, h2⟩
    · exfalso
      rw [if_pos hi, if_neg hj] at heq
      obtain ⟨c, r, hc, hd⟩ := natChars_head j.natAbs
      rw [hc] at heq
      simp only [List.cons_append, List.cons.injEq] at heq
      rw [← heq.1] at hd
      exact absurd hd (by decide)
  · by_cases hj : j < 0
    · exfalso
      rw [if_neg hi, if_pos hj] at heq
      obtain ⟨c, r, hc, hd⟩ := natChars_head i.natAbs
      rw [hc] at heq
      simp only [List.cons_append, List.cons.injEq] at heq
      rw [heq.1] at hd
      exact absurd hd (by decide)
    · rw [if_neg hi, if_neg hj] at heq
      obtain ⟨h1, h2⟩ := digits_cancel _ _ _ _ (natChars_digits _)
        (natChars_digits _) hs ht heq
      have := natChars_inj h1
      exact ⟨by omega, h2⟩

/-! ### Escape cancellation: the escaped body followed by the closing
quote determines the string -/

def simpleUnesc : Char → Option Char
  | '"' => some '"'
  | '\\' => some '\\'
  | 'n' => some '\n'
  | 'r' => some '\r'
  | 't' => some '\t'
  | _ => none

def hexValCh (c : Char) : Nat :=
  if isDigitCh c then c.toNat - 48 else c.toNat - 87

def uDecode (a b c d : Char) : Char :=
  Char.ofNat ((((hexValCh a * 16 + hexValCh b) * 16 + hexValCh c) * 16)
    + hexValCh d)

theorem hexRound {k : Nat} (h : k < 16) : hexValCh (hexDigitCh k) = k := by
  interval_cases k <;> decide

/-- Every character escapes to a plain character (never a quote or a
backslash), a two-character simple escape, or a six-character hex
escape; each form decodes back to the character. -/
theorem escChar_class (c : Char) :
    (escChar c = [c] ∧ c ≠ '"' ∧ c ≠ '\\') ∨
      (∃ e, escChar c = ['\\', e] ∧ e ≠ 'u' ∧ simpleUnesc e = some c) ∨
      (∃ a b d e, escChar c = ['\\', 'u', a, b, d, e] ∧ c = uDecode a b d e) := by
  by_cases h1 : c = '"'
  · subst h1
    exact Or.inr (Or.inl ⟨'"', rfl, by decide, rfl⟩)
  · by_cases h2 : c = '\\'
    · subst h2
      exact Or.inr (Or.inl ⟨'\\', rfl, by decide, rfl⟩)
    · by_cases h3 : c = '\n'
      · subst h3
        exact Or.inr (Or.inl ⟨'n', rfl, by decide, rfl⟩)
      · by_cases h4 : c = '\r'
        · subst h4
          exact Or.inr (Or.inl ⟨'r', rfl, by decide, rfl⟩)
        · by_cases h5 : c = '\t'
          · subst h5
            exact Or.inr (Or.inl ⟨'t', rfl, by decide, rfl⟩)
          · by_cases h6 : c.toNat < 0x20 ∨ c = '<' ∨ c = '>' ∨ c = '&'
                ∨ c.toNat = 0x2028 ∨ c.toNat = 0x2029
            · refine Or.inr (Or.inr ⟨hexDigitCh (c.toNat / 4096 % 16),
                hexDigitCh (c.toNat / 256 % 16), hexDigitCh (c.toNat / 16 % 16),
                hexDigitCh (c.toNat % 16), ?_, ?_⟩)
              · simp only [escChar, if_neg h1, if_neg h2, if_neg h3, if_neg h4,
                  if_neg h5, if_pos h6]
              · have hv : c.toNat < 65536 := by
                  rcases h6 with h | h | h | h | h | h
                  · omega
                  · subst h; decide
                  · subst h; decide
                  · subst h; decide
                  · omega
                  · omega
                unfold uDecode
                rw [hexRound (by omega), hexRound (by omega),
                  hexRound (by omega), hexRound (by omega)]
                have harith : ((c.toNat / 4096 % 16 * 16 + c.toNat / 256 % 16)
                    * 16 + c.toNat / 16 % 16) * 16 + c.toNat % 16 = c.toNat := by
                  omega
                rw [harith, Char.ofNat_toNat]
            · refine Or.inl ⟨?_, h1, h2⟩
              simp only [escChar, if_neg h1, if_neg h2, if_neg h3, if_neg h4,
                if_neg h5, if_neg h6]

theorem escStr_cancel :
    ∀ (a b s t : List Char),
      escStr a ++ '"' :: s = escStr b ++ '"' :: t → a = b ∧ s = t := by
  intro a
  induction a with
  | nil =>
    intro b s t heq
    cases b with
    | nil =>
      simp only [escStr, List.nil_append, List.cons.injEq] at heq
      exact ⟨rfl, heq.2⟩
    | cons d r =>
      exfalso
      simp only [escStr, List.nil_append, List.append_assoc] at heq
      rcases escChar_class d with ⟨hc, hq, hb⟩ | ⟨e, hc, _, _⟩ | ⟨p, q, u, w, hc, _⟩
      · rw [hc] at heq
        simp only [List.cons_append, List.cons.injEq] at heq
        exact hq heq.1.symm
      · rw [hc] at heq
        simp only [List.cons_append, List.cons.injEq] at heq
        exact absurd heq.1.symm (by decide)
      · rw [hc] at heq
        simp only [List.cons_append, List.cons.injEq] at heq
        exact absurd heq.1.symm (by decide)
  | cons c r ih =>
    intro b s t heq
    cases b with
    | nil =>
      exfalso
      simp only [escStr, List.nil_append, List.append_assoc] at heq
      rcases escChar_class c with ⟨hc, hq, hb⟩ | ⟨e, hc, _, _⟩ | ⟨p, q, u, w, hc, _⟩
      · rw [hc] at heq
        simp only [List.cons_append, List.cons.injEq] at heq
        exact hq heq.1
      · rw [hc] at heq
        simp only [List.cons_append, List.cons.injEq] at heq
        exact absurd heq.1 (by decide)
      · rw [hc] at heq
        simp only [List.cons_append, List.cons.injEq] at heq
        exact absurd heq.1 (by decide)
    | cons d r2 =>
      simp only [escStr, List.append_assoc] at heq
      rcases escChar_class c with ⟨hc, hcq, hcb⟩ | ⟨e, hc, heu, hed⟩
          | ⟨p, q, u, w, hc, hcd⟩ <;>
        rcases escChar_class d with ⟨hd, hdq, hdb⟩ | ⟨e2, hd, heu2, hed2⟩
          | ⟨p2, q2, u2, w2, hd, hdd⟩
      all_goals rw [hc, hd] at heq
      all_goals simp only [List.cons_append, List.nil_append,
        List.cons.injEq] at heq
      -- plain / plain
      · obtain ⟨rfl, heq2⟩ := heq
        obtain ⟨hr, hst⟩ := ih r2 s t (by simpa [escStr, List.append_assoc] using heq2)
        exact ⟨by rw [hr], hst⟩
      -- plain / simple escape: a plain character is never a backslash
      · exact absurd heq.1 hcb
      -- plain / hex escape
      · exact absurd heq.1 hcb
      -- simple / plain
      · exact absurd heq.1.symm hdb
      -- simple / simple
      · obtain ⟨_, rfl, heq2⟩ := heq
        have hch : c = d := by
          rw [hed] at hed2
          exact (Option.some.injEq _ _).mp hed2
        subst hch
        obtain ⟨hr, hst⟩ := ih r2 s t (by simpa [escStr, List.append_assoc] using heq2)
        exact ⟨by rw [hr], hst⟩
      -- simple / hex: the escape code is never the letter u
      · obtain ⟨_, he, _⟩ := heq
        exact absurd he heu
      -- hex / plain
      · exact absurd heq.1.symm hdb
      -- hex / simple
      · obtain ⟨_, he, _⟩ := heq
        exact absurd he.symm heu2
      -- hex / hex: six equal characters decode to the same character
      · obtain ⟨_, _, rfl, rfl, rfl, rfl, heq2⟩ := heq
        have hch : c = d := by rw [hcd, hdd]
        subst hch
        obtain ⟨hr, hst⟩ := ih r2 s t (by simpa [escStr, List.append_assoc] using heq2)
        exact ⟨by rw [hr], hst⟩

/-- Cancellation for whole quoted strings. -/
theorem quoteStr_cancel {k1 k2 s t : List Char}
    (heq : quoteStr k1 ++ s = quoteStr k2 ++ t) : k1 = k2 ∧ s = t := by
  simp only [quoteStr, List.cons_append, List.append_assoc,
    List.cons.injEq, true_and] at heq
  exact escStr_cancel k1 k2 s t (by simpa using heq)

/-! ### First-character classification of canonical strings -/

theorem canonS_null : canonicalString .null = ['n', 'u', 'l', 'l'] := by
  simp [canonicalString]

theorem canonS_true : canonicalString (.bool true) = ['t', 'r', 'u', 'e'] := by
  simp [canonicalString]

theorem canonS_false : canonicalString (.bool false) = ['f', 'a', 'l', 's', 'e'] := by
  simp [canonicalString]

theorem canonS_num (i : Int) : canonicalString (.num i) = intChars i := by
  simp [canonicalString]

theorem canonS_str (s : List Char) : canonicalString (.str s) = quoteStr s := by
  simp [canonicalString]

theorem canonS_arr (es : List Value) :
    canonicalString (.arr es) = '[' :: (canonElems es ++ [']']) := by
  simp [canonicalString]

def kindOf : Value → Nat
  | .null => 0
  | .bool _ => 1
  | .num _ => 2
  | .str _ => 3
  | .arr _ => 4
  | .obj _ => 5

def kindCode (c : Char) : Nat :=
  if c = 'n' then 0
  else if c = 't' ∨ c = 'f' then 1
  else if c = '-' ∨ isDigitCh c = true then 2
  else if c = '"' then 3
  else if c = '[' then 4
  else if c = '{' then 5
  else 6

theorem kindCode_digit {c : Char} (h : isDigitCh c = true) : kindCode c = 2 := by
  unfold kindCode
  rw [if_neg, if_neg, if_pos (Or.inr h)]
  · rintro (rfl | rfl) <;> exact absurd h (by decide)
  · rintro rfl
    exact absurd h (by decide)

/-- The canonical string of a value starts with a character that encodes
its kind. -/
theorem canon_cons (v : Value) :
    ∃ c r, canonicalString v = c :: r ∧ kindCode c = kindOf v := by
  cases v with
  | null => exact ⟨'n', _, canonS_null, rfl⟩
  | bool b =>
    cases b with
    | true => exact ⟨'t', _, canonS_true, rfl⟩
    | false => exact ⟨'f', _, canonS_false, rfl⟩
  | num i =>
    obtain ⟨c, r, hc, hd⟩ := intChars_head i
    refine ⟨c, r, by rw [canonS_num, hc], ?_⟩
    rcases hd with rfl | hd
    · rfl
    · rw [kindCode_digit hd]
      rfl
  | str s =>
    refine ⟨'"', escStr s ++ ['"'], ?_, rfl⟩
    rw [canonS_str]
    rfl
  | arr es => exact ⟨'[', _, canonS_arr es, rfl⟩
  | obj fs => exact ⟨'{', _, canon_obj_eq fs, rfl⟩

/-- A kind-encoding head character is never a terminator. -/
theorem canonHead_ne {v : Value} {c : Char} (h : kindCode c = kindOf v) :
    c ≠ ']' ∧ c ≠ ',' ∧ c ≠ '}' := by
  refine ⟨?_, ?_, ?_⟩ <;> rintro rfl
  · have h6 : kindCode ']' = 6 := by decide
    rw [h6] at h
    cases v <;> simp [kindOf] at h
  · have h6 : kindCode ',' = 6 := by decide
    rw [h6] at h
    cases v <;> simp [kindOf] at h
  · have h6 : kindCode '}' = 6 := by decide
    rw [h6] at h
    cases v <;> simp [kindOf] at h

theorem noDigit_tail_arr (l : List Value) (s : List Char) :
    noDigitHead (canonElemsTail l ++ ']' :: s) := by
  cases l with
  | nil =>
    show noDigitHead (([] : List Char) ++ ']' :: s)
    simp only [List.nil_append]
    show isDigitCh ']' = false
    decide
  | cons e r =>
    show noDigitHead ((',' :: (canonicalString e ++ canonElemsTail r)) ++ ']' :: s)
    simp only [List.cons_append]
    show isDigitCh ',' = false
    decide

theorem noDigit_tail_obj (l : List (List Char × List Char)) (s : List Char) :
    noDigitHead (joinFieldStrsTail l ++ '}' :: s) := by
  cases l with
  | nil =>
    show noDigitHead (([] : List Char) ++ '}' :: s)
    simp only [List.nil_append]
    show isDigitCh '}' = false
    decide
  | cons p r =>
    show noDigitHead ((',' :: (quoteStr p.1 ++ ':' :: (p.2 ++ joinFieldStrsTail r)))
      ++ '}' :: s)
    simp only [List.cons_append]
    show isDigitCh ',' = false
    decide

theorem forall2_mem_left {α β : Type} {R : α → β → Prop} :
    ∀ {l1 : List α} {l2 : List β}, List.Forall₂ R l1 l2 → ∀ a ∈ l1,
      ∃ b ∈ l2, R a b := by
  intro l1 l2 hf
  induction hf with
  | nil => simp
  | cons hab htail ih =>
    intro a ha
    rcases List.mem_cons.mp ha with rfl | ha2
    · exact ⟨_, List.mem_cons_self _ _, hab⟩
    · obtain ⟨b, hb, hr⟩ := ih a ha2
      exact ⟨b, List.mem_cons_of_mem _ hb, hr⟩

/-! ### Injectivity of the canonical string on well-formed values -/

/-- The induction-hypothesis shape threaded through the cancellation
lemmas below. -/
def InjIH (n : Nat) : Prop :=
  ∀ (x y : Value) (s t : List Char), sizeOf x ≤ n → wfValue x = true →
    wfValue y = true → noDigitHead s → noDigitHead t →
    canonicalString x ++ s = canonicalString y ++ t →
    deepEqual x y = true ∧ s = t

theorem arrCancel_aux {n : Nat} (ih : InjIH n) :
    ∀ (as bs : List Value) (s t : List Char), (∀ a ∈ as, sizeOf a ≤ n) →
      wfElems as = true → wfElems bs = true →
      canonElems as ++ ']' :: s = canonElems bs ++ ']' :: t →
      List.Forall₂ (fun a b => deepEqual a b = true) as bs ∧ s = t := by
  intro as
  induction as with
  | nil =>
    intro bs s t _ _ _ heq
    cases bs with
    | nil =>
      simp only [canonElems, List.nil_append, List.cons.injEq] at heq
      exact ⟨List.Forall₂.nil, heq.2⟩
    | cons f fs =>
      exfalso
      obtain ⟨c, r, hc, hk⟩ := canon_cons f
      simp only [canonElems, List.nil_append, List.append_assoc, hc,
        List.cons_append, List.cons.injEq] at heq
      exact (canonHead_ne hk).1 heq.1.symm
  | cons e es ihr =>
    intro bs s t hsz hw1 hw2 heq
    cases bs with
    | nil =>
      exfalso
      obtain ⟨c, r, hc, hk⟩ := canon_cons e
      simp only [canonElems, List.nil_append, List.append_assoc, hc,
        List.cons_append, List.cons.injEq] at heq
      exact (canonHead_ne hk).1 heq.1
    | cons f fs =>
      simp only [canonElems, List.append_assoc] at heq
      simp only [wfElems, Bool.and_eq_true] at hw1 hw2
      obtain ⟨hd, htl⟩ := ih e f _ _ (hsz e (List.mem_cons_self _ _)) hw1.1
        hw2.1 (noDigit_tail_arr es s) (noDigit_tail_arr fs t) heq
      cases es with
      | nil =>
        cases fs with
        | nil =>
          simp only [canonElemsTail, List.nil_append, List.cons.injEq] at htl
          exact ⟨List.Forall₂.cons hd List.Forall₂.nil, htl.2⟩
        | cons f2 fs2 =>
          exfalso
          simp only [canonElemsTail, List.nil_append, List.cons_append,
            List.cons.injEq] at htl
          exact absurd htl.1 (by decide)
      | cons e2 es2 =>
        cases fs with
        | nil =>
          exfalso
          simp only [canonElemsTail, List.nil_append, List.cons_append,
            List.cons.injEq] at htl
          exact absurd htl.1 (by decide)
        | cons f2 fs2 =>
          simp only [canonElemsTail, List.cons_append, List.cons.injEq,
            true_and, List.append_assoc] at htl
          have htl2 : canonElems (e2 :: es2) ++ ']' :: s
              = canonElems (f2 :: fs2) ++ ']' :: t := by
            simp only [canonElems, List.append_assoc]
            exact htl
          obtain ⟨hrest, hst⟩ := ihr (f2 :: fs2) s t
            (fun a ha => hsz a (List.mem_cons_of_mem _ ha)) hw1.2 hw2.2 htl2
          exact ⟨List.Forall₂.cons hd hrest, hst⟩

theorem objCancel_aux {n : Nat} (ih : InjIH n) :
    ∀ (L1 L2 : List (List Char × Value)) (s t : List Char),
      (∀ p ∈ L1, sizeOf p.2 ≤ n) →
      (∀ p ∈ L1, wfValue p.2 = true) → (∀ p ∈ L2, wfValue p.2 = true) →
      joinFieldStrs (canonPairs L1) ++ '}' :: s
        = joinFieldStrs (canonPairs L2) ++ '}' :: t →
      List.Forall₂ (fun p q => p.1 = q.1 ∧ deepEqual p.2 q.2 = true) L1 L2
        ∧ s = t := by
  intro L1
  induction L1 with
  | nil =>
    intro L2 s t _ _ _ heq
    cases L2 with
    | nil =>
      simp only [canonPairs, joinFieldStrs, List.nil_append,
        List.cons.injEq] at heq
      exact ⟨List.Forall₂.nil, heq.2⟩
    | cons q r =>
      exfalso
      obtain ⟨k2, w⟩ := q
      simp only [canonPairs, joinFieldStrs, quoteStr, List.nil_append,
        List.append_assoc, List.cons_append, List.cons.injEq] at heq
      exact absurd heq.1 (by decide)
  | cons p r ihr =>
    intro L2 s t hsz hw1 hw2 heq
    cases L2 with
    | nil =>
      exfalso
      obtain ⟨k1, v⟩ := p
      simp only [canonPairs, joinFieldStrs, quoteStr, List.nil_append,
        List.append_assoc, List.cons_append, List.cons.injEq] at heq
      exact absurd heq.1 (by decide)
    | cons q r2 =>
      obtain ⟨k1, v⟩ := p
      obtain ⟨k2, w⟩ := q
      simp only [canonPairs, joinFieldStrs, List.append_assoc,
        List.cons_append] at heq
      obtain ⟨hkeq, hrest⟩ := quoteStr_cancel heq
      subst hkeq
      simp only [List.cons.injEq, true_and] at hrest
      obtain ⟨hd, htl⟩ := ih v w _ _ (hsz (k1, v) (List.mem_cons_self _ _))
        (hw1 (k1, v) (List.mem_cons_self _ _))
        (hw2 (k1, w) (List.mem_cons_self _ _))
        (noDigit_tail_obj (canonPairs r) s) (noDigit_tail_obj (canonPairs r2) t)
        hrest
      cases r with
      | nil =>
        cases r2 with
        | nil =>
          simp only [canonPairs, joinFieldStrsTail, List.nil_append,
            List.cons.injEq] at htl
          exact ⟨List.Forall₂.cons ⟨rfl, hd⟩ List.Forall₂.nil, htl.2⟩
        | cons q2 r3 =>
          exfalso
          obtain ⟨k3, w3⟩ := q2
          simp only [canonPairs, joinFieldStrsTail, List.nil_append,
            List.cons_append, List.cons.injEq] at htl
          exact absurd htl.1 (by decide)
      | cons p2 r3 =>
        cases r2 with
        | nil =>
          exfalso
          obtain ⟨k3, v3⟩ := p2
          simp only [canonPairs, joinFieldStrsTail, List.nil_append,
            List.cons_append, List.cons.injEq] at htl
          exact absurd htl.1 (by decide)
        | cons q2 r4 =>
          obtain ⟨k3, v3⟩ := p2
          obtain ⟨k4, w4⟩ := q2
          simp only [canonPairs, joinFieldStrsTail, List.cons_append,
            List.cons.injEq, true_and, List.append_assoc] at htl
          have htl2 : joinFieldStrs (canonPairs ((k3, v3) :: r3)) ++ '}' :: s
              = joinFieldStrs (canonPairs ((k4, w4) :: r4)) ++ '}' :: t := by
            simp only [canonPairs, joinFieldStrs, List.append_assoc,
              List.cons_append]
            exact htl
          obtain ⟨hrest2, hst⟩ := ihr ((k4, w4) :: r4) s t
            (fun a ha => hsz a (List.mem_cons_of_mem _ ha))
            (fun a ha => hw1 a (List.mem_cons_of_mem _ ha))
            (fun a ha => hw2 a (List.mem_cons_of_mem _ ha)) htl2
          exact ⟨List.Forall₂.cons ⟨rfl, hd⟩ hrest2, hst⟩

theorem deepEqual_obj_of_forall2 {fs gs : List (List Char × Value)}
    (hwy : wfFields gs = true)
    (hf : List.Forall₂ (fun p q => p.1 = q.1 ∧ deepEqual p.2 q.2 = true)
      (sortFieldsV fs) (sortFieldsV gs)) :
    deepEqual (.obj fs) (.obj gs) = true := by
  rw [deepEqual_obj_iff]
  constructor
  · have h1 := hf.length_eq
    have h2 := (sortFieldsV_perm fs).length_eq
    have h3 := (sortFieldsV_perm gs).length_eq
    omega
  · rw [deepEqualFields_iff]
    intro p hp
    have hp1 : p ∈ sortFieldsV fs := (sortFieldsV_perm fs).symm.subset hp
    obtain ⟨q, hq, hkq, hdq⟩ := forall2_mem_left hf p hp1
    obtain ⟨k, v⟩ := p
    obtain ⟨k2, w⟩ := q
    simp only at hkq hdq
    subst hkq
    have hq2 : (k, w) ∈ gs := (sortFieldsV_perm gs).subset hq
    rw [deepEqualAt_iff]
    exact ⟨w, objLookup_of_mem_nodup hq2 (wfFields_keysNodup hwy), hdq⟩

theorem canon_inj_aux : ∀ n : Nat, InjIH n := by
  intro n
  induction n with
  | zero => intro x y s t h; cases x <;> simp_all
  | succ n ih =>
    intro x y s t hle hwx hwy hs ht heq
    have hkk : kindOf x = kindOf y := by
      obtain ⟨c1, r1, hc1, hk1⟩ := canon_cons x
      obtain ⟨c2, r2, hc2, hk2⟩ := canon_cons y
      rw [hc1, hc2] at heq
      simp only [List.cons_append, List.cons.injEq] at heq
      rw [← hk1, ← hk2, heq.1]
    cases x with
    | null =>
      cases y with
      | null =>
        replace heq : 'n' :: 'u' :: 'l' :: 'l' :: s
            = 'n' :: 'u' :: 'l' :: 'l' :: t := heq
        simp only [List.cons.injEq, true_and] at heq
        exact ⟨by simp [deepEqual], heq⟩
      | bool b => simp [kindOf] at hkk
      | num i => simp [kindOf] at hkk
      | str c => simp [kindOf] at hkk
      | arr es => simp [kindOf] at hkk
      | obj fs => simp [kindOf] at hkk
    | bool a =>
      cases y with
      | null => simp [kindOf] at hkk
      | bool b =>
        cases a <;> cases b
        · replace heq : 'f' :: 'a' :: 'l' :: 's' :: 'e' :: s
              = 'f' :: 'a' :: 'l' :: 's' :: 'e' :: t := heq
          simp only [List.cons.injEq, true_and] at heq
          exact ⟨by simp [deepEqual], heq⟩
        · replace heq : 'f' :: 'a' :: 'l' :: 's' :: 'e' :: s
              = 't' :: 'r' :: 'u' :: 'e' :: t := heq
          simp only [List.cons.injEq] at heq
          exact absurd heq.1 (by decide)
        · replace heq : 't' :: 'r' :: 'u' :: 'e' :: s
              = 'f' :: 'a' :: 'l' :: 's' :: 'e' :: t := heq
          simp only [List.cons.injEq] at heq
          exact absurd heq.1 (by decide)
        · replace heq : 't' :: 'r' :: 'u' :: 'e' :: s
              = 't' :: 'r' :: 'u' :: 'e' :: t := heq
          simp only [List.cons.injEq, true_and] at heq
          exact ⟨by simp [deepEqual], heq⟩
      | num i => simp [kindOf] at hkk
      | str c => simp [kindOf] at hkk
      | arr es => simp [kindOf] at hkk
      | obj fs => simp [kindOf] at hkk
    | num i =>
      cases y with
      | null => simp [kindOf] at hkk
      | bool b => simp [kindOf] at hkk
      | num j =>
        replace heq : intChars i ++ s = intChars j ++ t := heq
        obtain ⟨hij, hst⟩ := intChars_cancel hs ht heq
        subst hij
        exact ⟨by simp [deepEqual], hst⟩
      | str c => simp [kindOf] at hkk
      | arr es => simp [kindOf] at hkk
      | obj fs => simp [kindOf] at hkk
    | str a =>
      cases y with
      | null => simp [kindOf] at hkk
      | bool b => simp [kindOf] at hkk
      | num i => simp [kindOf] at hkk
      | str b =>
        replace heq : quoteStr a ++ s = quoteStr b ++ t := heq
        obtain ⟨hab, hst⟩ := quoteStr_cancel heq
        subst hab
        exact ⟨by simp [deepEqual], hst⟩
      | arr es => simp [kindOf] at hkk
      | obj fs => simp [kindOf] at hkk
    | arr as =>
      cases y with
      | null => simp [kindOf] at hkk
      | bool b => simp [kindOf] at hkk
      | num i => simp [kindOf] at hkk
      | str c => simp [kindOf] at hkk
      | arr bs =>
        replace heq : '[' :: ((canonElems as ++ [']']) ++ s)
            = '[' :: ((canonElems bs ++ [']']) ++ t) := heq
        simp only [List.cons.injEq, true_and, List.append_assoc,
          List.cons_append, List.nil_append] at heq
        simp only [wfValue] at hwx hwy
        have hsz : ∀ a ∈ as, sizeOf a ≤ n := by
          intro a ha
          have h1 := List.sizeOf_lt_of_mem ha
          simp only [Value.arr.sizeOf_spec] at hle
          omega
        obtain ⟨hf, hst⟩ := arrCancel_aux ih as bs s t hsz hwx hwy heq
        exact ⟨deepEqual_arr_iff.mpr hf, hst⟩
      | obj fs => simp [kindOf] at hkk
    | obj fs =>
      cases y with
      | null => simp [kindOf] at hkk
      | bool b => simp [kindOf] at hkk
      | num i => simp [kindOf] at hkk
      | str c => simp [kindOf] at hkk
      | arr es => simp [kindOf] at hkk
      | obj gs =>
        replace heq :
            '{' :: ((joinFieldStrs (sortFieldStrs (canonPairs fs)) ++ ['}']) ++ s)
              = '{' :: ((joinFieldStrs (sortFieldStrs (canonPairs gs)) ++ ['}']) ++ t) := heq
        rw [← canonPairs_sortFieldsV, ← canonPairs_sortFieldsV] at heq
        simp only [List.cons.injEq, true_and, List.append_assoc,
          List.cons_append, List.nil_append] at heq
        simp only [wfValue] at hwx hwy
        have hsz : ∀ p ∈ sortFieldsV fs, sizeOf p.2 ≤ n := by
          intro p hp
          have hp2 : p ∈ fs := (sortFieldsV_perm fs).subset hp
          have h1 := List.sizeOf_lt_of_mem hp2
          obtain ⟨k, v⟩ := p
          simp only [Value.obj.sizeOf_spec, Prod.mk.sizeOf_spec] at hle h1
          simp only
          omega
        have hwv1 : ∀ p ∈ sortFieldsV fs, wfValue p.2 = true := fun p hp =>
          wfFields_values hwx p ((sortFieldsV_perm fs).subset hp)
        have hwv2 : ∀ p ∈ sortFieldsV gs, wfValue p.2 = true := fun p hp =>
          wfFields_values hwy p ((sortFieldsV_perm gs).subset hp)
        obtain ⟨hf2, hst⟩ := objCancel_aux ih (sortFieldsV fs) (sortFieldsV gs)
          s t hsz hwv1 hwv2 heq
        exact ⟨deepEqual_obj_of_forall2 hwy hf2, hst⟩

/-- Equal canonical strings of well-formed values mean deep equality. -/
theorem canon_inj {x y : Value} (hwx : wfValue x = true)
    (hwy : wfValue y = true)
    (heq : canonicalString x = canonicalString y) : deepEqual x y = true := by
  have h := canon_inj_aux (sizeOf x) x y [] [] le_rfl hwx hwy trivial trivial
    (by simp [heq])
  exact h.1

/-! ### C8: normalization is order-insensitive on arrays -/

/-- The non-strict lexicographic order on rendered strings, as a Prop. -/
def strLe (s t : List Char) : Prop :=
  lexLt t s = false

instance : DecidableRel strLe := fun s t => by
  unfold strLe
  infer_instance

instance : IsAntisymm (List Char) strLe :=
  ⟨fun s t h1 h2 => lexLt_conn s t h2 h1⟩

theorem sortCanon_map_sorted (l : List Value) :
    List.Sorted strLe ((sortCanon l).map canonicalString) := by
  have h := sortCanon_sorted l
  show List.Pairwise strLe ((sortCanon l).map canonicalString)
  exact List.Pairwise.map canonicalString (fun a b hab => hab) h

theorem map_canon_normElems (l : List Value) :
    (normElems l).map canonicalString =
      l.map (fun v => canonicalString (normalizeValue v)) := by
  rw [normElems_eq_map, List.map_map]
  rfl

theorem forall2_of_map_eq (f : Value → List Char) :
    ∀ {l1 l2 : List Value}, l1.map f = l2.map f →
      List.Forall₂ (fun x y => f x = f y) l1 l2 := by
  intro l1
  induction l1 with
  | nil =>
    intro l2 h
    cases l2 with
    | nil => exact List.Forall₂.nil
    | cons b bs => simp at h
  | cons a as ih =>
    intro l2 h
    cases l2 with
    | nil => simp at h
    | cons b bs =>
      simp only [List.map_cons, List.cons.injEq] at h
      exact List.Forall₂.cons h.1 (ih h.2)

theorem map_eq_of_forall2 (f : Value → List Char) :
    ∀ {l1 l2 : List Value},
      List.Forall₂ (fun x y => f x = f y) l1 l2 → l1.map f = l2.map f := by
  intro l1 l2 h
  induction h with
  | nil => rfl
  | cons hab _ ih => simp only [List.map_cons, ih, hab]

theorem forall2_canon_norm :
    ∀ {l1 l2 : List Value}, (∀ x ∈ l1, wfValue x = true) →
      (∀ y ∈ l2, wfValue y = true) →
      List.Forall₂ (fun x y => deepEqual x y = true) l1 l2 →
      List.Forall₂ (fun x y =>
        canonicalString (normalizeValue x) = canonicalString (normalizeValue y))
        l1 l2 := by
  intro l1 l2 hw1 hw2 h
  induction h with
  | nil => exact List.Forall₂.nil
  | cons hab htail ih =>
    rename_i a b as bs
    refine List.Forall₂.cons ?_
      (ih (fun x hx => hw1 x (by simp [hx])) (fun y hy => hw2 y (by simp [hy])))
    have hwa := hw1 a (by simp)
    have hwb := hw2 b (by simp)
    exact canon_eq_of_deepEqual (wf_norm hwa) (wf_norm hwb)
      (deepEqual_norm hwa hwb hab)

theorem forall2_deepEqual_of_canon :
    ∀ {l1 l2 : List Value}, (∀ x ∈ l1, wfValue x = true) →
      (∀ y ∈ l2, wfValue y = true) →
      List.Forall₂ (fun x y => canonicalString x = canonicalString y) l1 l2 →
      List.Forall₂ (fun x y => deepEqual x y = true) l1 l2 := by
  intro l1 l2 hw1 hw2 h
  induction h with
  | nil => exact List.Forall₂.nil
  | cons hab htail ih =>
    rename_i a b as bs
    exact List.Forall₂.cons
      (canon_inj (hw1 a (by simp)) (hw2 b (by simp)) hab)
      (ih (fun x hx => hw1 x (by simp [hx])) (fun y hy => hw2 y (by simp [hy])))

theorem wf_sortCanon_norm {a : List Value} (hw : wfElems a = true) :
    ∀ x ∈ sortCanon (normElems a), wfValue x = true := by
  intro x hx
  have hx2 : x ∈ normElems a := (sortCanon_perm (normElems a)).mem_iff.mp hx
  rw [normElems_eq_map] at hx2
  obtain ⟨y, hy, rfl⟩ := List.mem_map.mp hx2
  exact wf_norm (wfElems_iff.mp hw y hy)

/-- C8: for every two well-formed arrays whose element sequences are
permutations of each other up to structural equality (`deepEqual`, which is
insensitive to object-field order, matching Go's unordered maps),
`normalizeValue` yields structurally equal results: equality after
normalization is insensitive to the order of array elements. -/
theorem normalize_perm_equal (a b : List Value)
    (hwa : wfValue (.arr a) = true) (hwb : wfValue (.arr b) = true)
    (hperm : ∃ b2, List.Perm a b2 ∧
      List.Forall₂ (fun x y => deepEqual x y = true) b2 b) :
    deepEqual (normalizeValue (.arr a)) (normalizeValue (.arr b)) = true := by
  obtain ⟨b2, hp, hf⟩ := hperm
  have hwa2 : wfElems a = true := hwa
  have hwb2 : wfElems b = true := hwb
  have hwm : wfElems b2 = true :=
    wfElems_iff.mpr (fun x hx => wfElems_iff.mp hwa2 x (hp.mem_iff.mpr hx))
  have hcanon := forall2_canon_norm (wfElems_iff.mp hwm) (wfElems_iff.mp hwb2) hf
  have hmapeq := map_eq_of_forall2 (fun v => canonicalString (normalizeValue v)) hcanon
  have h1 := (sortCanon_perm (normElems a)).map canonicalString
  rw [map_canon_normElems] at h1
  have h2 := (sortCanon_perm (normElems b)).map canonicalString
  rw [map_canon_normElems] at h2
  have hpb : List.Perm (b2.map (fun v => canonicalString (normalizeValue v)))
      (b.map (fun v => canonicalString (normalizeValue v))) := by
    rw [hmapeq]
  have hAB := h1.trans (((hp.map
    (fun v => canonicalString (normalizeValue v))).trans hpb).trans h2.symm)
  have heqmap := List.eq_of_perm_of_sorted hAB
    (sortCanon_map_sorted (normElems a)) (sortCanon_map_sorted (normElems b))
  have hf2 := forall2_of_map_eq canonicalString heqmap
  have hde := forall2_deepEqual_of_canon
    (wf_sortCanon_norm hwa2) (wf_sortCanon_norm hwb2) hf2
  show deepEqual (Value.arr (sortCanon (normElems a)))
    (Value.arr (sortCanon (normElems b))) = true
  exact deepEqual_arr_iff.mpr hde

/-- Witness for normalize_perm_equal: the instance from the spec,
normalize([1,2,3,{"a":1,"b":2}]) equals
normalize([{"b":2,"a":1},3,2,1]). -/
theorem normalize_perm_equal_witness :
    deepEqual
      (normalizeValue (.arr [.num 1, .num 2, .num 3,
        .obj [(['a'], .num 1), (['b'], .num 2)]]))
      (normalizeValue (.arr [.obj [(['b'], .num 2), (['a'], .num 1)],
        .num 3, .num 2, .num 1])) = true :=
  normalize_perm_equal
    [.num 1, .num 2, .num 3, .obj [(['a'], .num 1), (['b'], .num 2)]]
    [.obj [(['b'], .num 2), (['a'], .num 1)], .num 3, .num 2, .num 1]
    rfl rfl
    ⟨[.obj [(['a'], .num 1), (['b'], .num 2)], .num 3, .num 2, .num 1],
     (List.reverse_perm
       [Value.num 1, .num 2, .num 3,
        .obj [(['a'], .num 1), (['b'], .num 2)]]).symm,
     List.Forall₂.cons (by simp [deepEqual, deepEqualFields, deepEqualAt])
       (List.Forall₂.cons (by simp [deepEqual])
         (List.Forall₂.cons (by simp [deepEqual])
           (List.Forall₂.cons (by simp [deepEqual]) List.Forall₂.nil)))⟩

end EasyJson
